import Mathlib

/-!
# Categorized help dispatch of `cmd/geth/usage.go`

A shallow embedding of the help printer installed by `init` in
`src/cmd/geth/usage.go`, and theorems about the view it hands to the
original printer and about the state in which it leaves the package-level
registry `AppHelpFlagGroups`.

Modelling conventions.

* A `cli.Flag` is an interface value; the only method the code calls on it is
  `String()`.  A flag is modelled as its canonical string together with an
  identity, so that two different flags may share a canonical string.
* `AppHelpFlagGroups` is a Go slice that the code mutates in place.  It is
  modelled as its backing array together with its length (`GroupSlice`); the
  capacity is the length of the backing array.
* The `Flags` slice of a group is modelled by its elements; reslicing it
  beyond its length is reported as out of range (every `Flags` slice is taken
  with capacity equal to its length, as for a slice literal).
* A run-time panic is an explicit outcome; the deferred function of the
  app-help branch runs on every exit path after it has been registered.
-/

namespace Usage

/-! ## Data model -/

/-- A `cli.Flag`: the result of its `String()` method and the rest of its identity. -/
structure Flag where
  canonical : String
  ident : Nat
deriving DecidableEq, Repr

/-- A Go `string`. -/
abbrev GoString := String

/-- The `String()` method of a flag. -/
def Flag.String (f : Flag) : GoString := f.canonical

/-- The type `flags.FlagGroup`: a named, ordered collection of flags. -/
structure FlagGroup where
  Name : GoString
  Flags : List Flag
deriving DecidableEq, Repr

/-- The slice `AppHelpFlagGroups`: backing array and length.  The elements of
the slice are `arr.take len`; what lies beyond is stale but still in memory. -/
structure GroupSlice where
  arr : List FlagGroup
  len : Nat
deriving DecidableEq, Repr

/-- The elements of the slice, in order. -/
def GroupSlice.toList (s : GroupSlice) : List FlagGroup := s.arr.take s.len

/-- A slice literal: capacity equal to length. -/
def GroupSlice.ofList (R : List FlagGroup) : GroupSlice := ⟨R, R.length⟩

/-- The `Flags` of the last element of the slice, when there is one. -/
def GroupSlice.fallbackFlags (s : GroupSlice) : Option (List Flag) :=
  s.toList.getLast?.map FlagGroup.Flags

/-- The run-time panics the printer can raise. -/
inductive Panic where
  | indexOutOfRange
  | sliceBoundsOutOfRange
  | typeAssertion
  | renderer
deriving DecidableEq, Repr

/-- The `data interface{}` argument of the printer. -/
inductive Payload where
  | app (Flags : List Flag)
  | command (Flags : List Flag)
  | other (tag : Nat)
deriving DecidableEq, Repr

/-- What the printer passes as `data` to the original printer. -/
inductive PrinterData where
  | helpData (App : Payload) (FlagGroups : List FlagGroup)
  | commandData (cmd : Payload) (categorizedFlags : List FlagGroup)
  | plain (data : Payload)
deriving DecidableEq, Repr

/-- An order in which `range` may visit the entries of a Go map. -/
structure MapOrder where
  iterate : List (GoString × List Flag) → List (GoString × List Flag)
  perm : ∀ l, (iterate l).Perm l

/-- What `usage.go` takes from outside the file. -/
structure Env where
  AppHelpTemplate : GoString
  CommandHelpTemplate : GoString
  DeprecatedFlags : List Flag
  defaultLabel : GoString
  mapOrder : MapOrder
  originalHelpPrinter : GoString → PrinterData → Except Panic GoString

/-- The variable `quorumAccountFlagGroup`. -/
def quorumAccountFlagGroup : GoString := "QUORUM ACCOUNT"

/-! ## App-help branch -/

/-- The set `categorized` of the app-help branch: the canonical string of
every flag of every group. -/
def categorized (groups : List FlagGroup) : List GoString :=
  (groups.flatMap FlagGroup.Flags).map Flag.String

/-- The set `deprecated`. -/
def deprecated (DeprecatedFlags : List Flag) : List GoString :=
  DeprecatedFlags.map Flag.String

/-- The slice `uncategorized`: the flags of the application in neither set,
in their order. -/
def uncategorized (groups : List FlagGroup) (DeprecatedFlags flags : List Flag) : List Flag :=
  flags.filter fun flag =>
    !decide (flag.String ∈ categorized groups) && !decide (flag.String ∈ deprecated DeprecatedFlags)

/-- Assignment to the `Flags` field of the element at index `i` of the backing array. -/
def setFlags : List FlagGroup → Nat → List Flag → List FlagGroup
  | [], _, _ => []
  | g :: rest, 0, fl => { g with Flags := fl } :: rest
  | g :: rest, i + 1, fl => g :: setFlags rest i fl

/-- The staging statement `AppHelpFlagGroups[len-1].Flags = append(..., uncategorized...)`.
Returns the new slice and `miscs`. -/
def stage (s : GroupSlice) (unc : List Flag) : Except Panic (GroupSlice × Nat) :=
  if s.len = 0 then .error .indexOutOfRange
  else
    match s.arr[s.len - 1]? with
    | none => .error .indexOutOfRange
    | some g => .ok (⟨setFlags s.arr (s.len - 1) (g.Flags ++ unc), s.len⟩, g.Flags.length)

/-- The deferred function: `AppHelpFlagGroups[len-1].Flags = AppHelpFlagGroups[len-1].Flags[:miscs]`,
on the slice as it is when the function runs. -/
def unstage (s : GroupSlice) (miscs : Nat) : Except Panic GroupSlice :=
  if s.len = 0 then .error .indexOutOfRange
  else
    match s.arr[s.len - 1]? with
    | none => .error .indexOutOfRange
    | some g =>
      if miscs ≤ g.Flags.length then .ok ⟨setFlags s.arr (s.len - 1) (g.Flags.take miscs), s.len⟩
      else .error .sliceBoundsOutOfRange

/-- The statement `AppHelpFlagGroups = append(AppHelpFlagGroups[:i], AppHelpFlagGroups[i+1:]...)`
once its bounds are checked: the elements `i+1 .. len-1` move one place down
inside the backing array, what lies at `len-1` and beyond stays. -/
def removeAt (s : GroupSlice) (i : Nat) : GroupSlice :=
  ⟨s.arr.take i ++ (s.arr.drop (i + 1)).take (s.len - (i + 1)) ++ s.arr.drop (s.len - 1), s.len - 1⟩

/-- The loop `for i, group := range AppHelpFlagGroups`: `k` iterations are left,
the next index is `i`, `group` is read from the backing array as it is now. -/
def excludeLoop : Nat → Nat → GroupSlice → GroupSlice × Option Panic
  | 0, _, s => (s, none)
  | k + 1, i, s =>
    match s.arr[i]? with
    | none => (s, some .indexOutOfRange)
    | some group =>
      if group.Name = quorumAccountFlagGroup then
        if i + 1 ≤ s.len then excludeLoop k (i + 1) (removeAt s i)
        else (s, some .sliceBoundsOutOfRange)
      else excludeLoop k (i + 1) s

/-- The exclusion loop: the range expression is evaluated once, so the loop
makes as many iterations as the slice has elements when it starts. -/
def exclude (s : GroupSlice) : GroupSlice × Option Panic := excludeLoop s.len 0 s

/-- One call of the printer: the registry it leaves, the call it made to the
original printer (if it got that far) and how it ended. -/
structure Result where
  registry : GroupSlice
  handed : Option (GoString × PrinterData)
  outcome : Except Panic GoString

/-- The deferred function run on exit, when it was registered. -/
def runDeferred (s : GroupSlice) (miscs : Option Nat) (out : Except Panic GoString) :
    GroupSlice × Except Panic GoString :=
  match miscs with
  | none => (s, out)
  | some m =>
    match unstage s m with
    | .ok s1 => (s1, out)
    | .error p => (s, .error p)

/-- The rest of the app-help branch once the staging is done: the exclusion
loop, the call of the original printer with the slice as it is then, and the
deferred function (`miscs` is `none` when it was not registered). -/
def excludeAndRender (env : Env) (tmpl : GoString) (data : Payload) (s1 : GroupSlice)
    (miscs : Option Nat) : Result :=
  match exclude s1 with
  | (s2, some p) =>
    let fin := runDeferred s2 miscs (.error p)
    ⟨fin.1, none, fin.2⟩
  | (s2, none) =>
    let arg := PrinterData.helpData data s2.toList
    let fin := runDeferred s2 miscs (env.originalHelpPrinter tmpl arg)
    ⟨fin.1, some (tmpl, arg), fin.2⟩

/-- The app-help branch of the printer. -/
def appHelp (env : Env) (tmpl : GoString) (data : Payload) (s : GroupSlice) : Result :=
  match data with
  | .app flags =>
    let unc := uncategorized s.toList env.DeprecatedFlags flags
    if unc.length > 0 then
      match stage s unc with
      | .error p => ⟨s, none, .error p⟩
      | .ok (s1, miscs) => excludeAndRender env tmpl data s1 (some miscs)
    else excludeAndRender env tmpl data s none
  | _ => ⟨s, none, .error .typeAssertion⟩

/-! ## Command-help branch -/

/-- Modelled from the spec: `flags.FlagCategory` of package `internal/flags`,
which is not part of the source at hand.  It finds the first group of the
registry whose flags contain the flag by canonical-string match; the name of
that group is the category of the flag, or the default label if no group
matches. -/
def FlagCategory (defaultLabel : GoString) (flag : Flag) (flagGroups : List FlagGroup) : GoString :=
  match flagGroups.find? fun g => decide (flag.String ∈ g.Flags.map Flag.String) with
  | some g => g.Name
  | none => defaultLabel

/-- Modelled from the spec: `sort.Sort(flags.ByCategory(sorted))`, whose order
`flags.ByCategory` belongs to package `internal/flags` and is not part of the
source at hand.  It sorts the pairs by category name in ordinary
lexicographic string order, here the lexicographic order of the character
sequences of the names. -/
def sortByCategory (sorted : List FlagGroup) : List FlagGroup :=
  sorted.insertionSort fun a b => a.Name.data ≤ b.Name.data

/-- A Go `map[string][]cli.Flag`: its entries, one for each key. -/
abbrev FlagMap := List (GoString × List Flag)

/-- The test `_, ok := m[key]`. -/
def FlagMap.has (m : FlagMap) (key : GoString) : Bool := m.any fun e => decide (e.1 = key)

/-- The value `m[key]`: the zero value (a nil slice) when the key is absent. -/
def FlagMap.get (m : FlagMap) (key : GoString) : List Flag :=
  match m.find? fun e => decide (e.1 = key) with
  | some e => e.2
  | none => []

/-- The assignment `m[key] = v`. -/
def FlagMap.set (m : FlagMap) (key : GoString) (v : List Flag) : FlagMap :=
  if m.has key then m.map fun e => if e.1 = key then (key, v) else e
  else m ++ [(key, v)]

/-- The bucketing loop over the flags of the command.  The guard looks the
canonical string of the flag up in the map, whose keys are category names. -/
def bucket (cat : Flag → GoString) : List Flag → FlagMap → FlagMap
  | [], m => m
  | flag :: rest, m =>
    if m.has flag.String then bucket cat rest m
    else bucket cat rest (m.set (cat flag) (m.get (cat flag) ++ [flag]))

/-- The map `categorized` of the command-help branch when the loop is over. -/
def categorizedFlags (defaultLabel : GoString) (groups : List FlagGroup) (flags : List Flag) : FlagMap :=
  bucket (fun flag => FlagCategory defaultLabel flag groups) flags []

/-- The slice `sorted`: one group for each entry of the map, in the order in
which `range` visits the map, then sorted. -/
def sortedView (order : MapOrder) (m : FlagMap) : List FlagGroup :=
  sortByCategory ((order.iterate m).map fun e => { Name := e.1, Flags := e.2 })

/-- The command-help branch of the printer. -/
def commandHelp (env : Env) (tmpl : GoString) (data : Payload) (s : GroupSlice) : Result :=
  match data with
  | .command flags =>
    let arg := PrinterData.commandData data
      (sortedView env.mapOrder (categorizedFlags env.defaultLabel s.toList flags))
    ⟨s, some (tmpl, arg), env.originalHelpPrinter tmpl arg⟩
  | _ => ⟨s, none, .error .typeAssertion⟩

/-! ## The printer -/

/-- The function installed as `cli.HelpPrinter`. -/
def HelpPrinter (env : Env) (tmpl : GoString) (data : Payload) (s : GroupSlice) : Result :=
  if tmpl = env.AppHelpTemplate then appHelp env tmpl data s
  else if tmpl = env.CommandHelpTemplate then commandHelp env tmpl data s
  else ⟨s, some (tmpl, .plain data), env.originalHelpPrinter tmpl (.plain data)⟩

/-- The groups handed to the original printer by a call, when the call got
that far through the app-help or the command-help branch. -/
def Result.view (r : Result) : Option (List FlagGroup) :=
  match r.handed with
  | some (_, .helpData _ groups) => some groups
  | some (_, .commandData _ groups) => some groups
  | _ => none

/-- Map iteration in insertion order. -/
def MapOrder.insertion : MapOrder := ⟨id, fun _ => List.Perm.refl _⟩

/-- Map iteration in reverse insertion order. -/
def MapOrder.reversed : MapOrder := ⟨List.reverse, fun l => List.reverse_perm l⟩

/-- An environment for the examples: two template texts, a default label, an
original printer that succeeds. -/
def exampleEnv (dep : List Flag) (order : MapOrder) : Env where
  AppHelpTemplate := "app"
  CommandHelpTemplate := "command"
  DeprecatedFlags := dep
  defaultLabel := "MISC"
  mapOrder := order
  originalHelpPrinter := fun _ _ => .ok ""

/-- An environment whose original printer fails. -/
def failingEnv (dep : List Flag) (order : MapOrder) : Env :=
  { exampleEnv dep order with originalHelpPrinter := fun _ _ => .error .renderer }

/-- The slice is well formed: its length does not exceed its capacity. -/
def GroupSlice.wf (s : GroupSlice) : Prop := s.len ≤ s.arr.length

/-- The last group, when there is one, does not bear the hidden name. -/
def fallbackShown (groups : List FlagGroup) : Prop :=
  ∀ g, groups.getLast? = some g → g.Name ≠ quorumAccountFlagGroup

/-- No two neighbouring groups both bear the hidden name. -/
def noAdjacentHidden (groups : List FlagGroup) : Prop :=
  groups.Chain' fun a b => ¬ (a.Name = quorumAccountFlagGroup ∧ b.Name = quorumAccountFlagGroup)

/-! ## Example data -/

/-- Example flag `X`. -/
def flagX : Flag := ⟨"--x", 0⟩
/-- Example flag `Y`. -/
def flagY : Flag := ⟨"--y", 1⟩
/-- Example flag `Z`. -/
def flagZ : Flag := ⟨"--z", 2⟩
/-- Example flag `W`. -/
def flagW : Flag := ⟨"--w", 3⟩
/-- Example flag of the hidden group. -/
def flagH : Flag := ⟨"--h", 4⟩

/-- The registry of the example of the specification: `Net = [X, Y]`, `Misc = [Z]`. -/
def registryNetMisc : List FlagGroup := [⟨"Net", [flagX, flagY]⟩, ⟨"Misc", [flagZ]⟩]

/-- A registry with the hidden group between two others, as in `AppHelpFlagGroups`. -/
def registryHiddenMiddle : List FlagGroup :=
  [⟨"Net", [flagX, flagY]⟩, ⟨quorumAccountFlagGroup, [flagH]⟩, ⟨"Misc", [flagZ]⟩]

/-- A registry whose last group bears the hidden name. -/
def registryHiddenLast : List FlagGroup :=
  [⟨"Net", [flagX, flagY]⟩, ⟨quorumAccountFlagGroup, [flagH]⟩]

/-- A registry with two neighbouring groups that bear the hidden name. -/
def registryHiddenTwice : List FlagGroup :=
  [⟨quorumAccountFlagGroup, [flagX]⟩, ⟨quorumAccountFlagGroup, [flagH]⟩, ⟨"Misc", [flagZ]⟩]

/-- A registry with two groups that bear the hidden name, another group
between them. -/
def registryHiddenApart : List FlagGroup :=
  [⟨quorumAccountFlagGroup, [flagX]⟩, ⟨"Net", [flagY]⟩, ⟨quorumAccountFlagGroup, [flagH]⟩,
    ⟨"Misc", [flagZ]⟩]

/-! ## The exclusion loop as a function on lists -/

/-- What the exclusion loop makes of the groups in front of the last one:
a group with the hidden name is removed, and the group that follows it is
not looked at, because it has moved into the place just visited. -/
def rangeRemove : List FlagGroup → List FlagGroup
  | [] => []
  | [g] => if g.Name = quorumAccountFlagGroup then [] else [g]
  | g :: g1 :: rest =>
    if g.Name = quorumAccountFlagGroup then g1 :: rangeRemove rest
    else g :: rangeRemove (g1 :: rest)

/-- A group that does not bear the hidden name. -/
def FlagGroup.shown (g : FlagGroup) : Prop := g.Name ≠ quorumAccountFlagGroup

/-- The group with the flags `extra` appended to its own. -/
def FlagGroup.extend (g : FlagGroup) (extra : List Flag) : FlagGroup :=
  { g with Flags := g.Flags ++ extra }

/-- How many times a canonical string occurs among the flags of the groups. -/
def occurrences (str : GoString) (groups : List FlagGroup) : Nat :=
  (categorized groups).count str

/-- How many groups have a flag with the canonical string. -/
def groupsWith (str : GoString) (groups : List FlagGroup) : Nat :=
  groups.countP fun g => decide (str ∈ g.Flags.map Flag.String)

/-- How many groups bear the hidden name. -/
def hiddenCount (groups : List FlagGroup) : Nat :=
  groups.countP fun g => decide (g.Name = quorumAccountFlagGroup)

/-- The app-help view in the words of the specification: the registry with the
flags in no group and not deprecated appended to its last group, and the
groups with the hidden name filtered out. -/
def specAppView (R : List FlagGroup) (DeprecatedFlags flags : List Flag) : List FlagGroup :=
  match R.getLast? with
  | none => []
  | some fallback =>
    (R.dropLast ++ [fallback.extend (uncategorized R DeprecatedFlags flags)]).filter
      fun g => !decide (g.Name = quorumAccountFlagGroup)

/-! ## Theorems: the exclusion loop -/

theorem excludeLoop_shown (k : Nat) : ∀ (i : Nat) (s : GroupSlice),
    (∀ j, i ≤ j → j < i + k → ∃ g, s.arr[j]? = some g ∧ g.shown) →
    excludeLoop k i s = (s, none) := by
  induction k with
  | zero => intro i s _; rfl
  | succ k ih =>
    intro i s h
    obtain ⟨g, hg, hn⟩ := h i (Nat.le_refl i) (by omega)
    have hn1 : ¬ g.Name = quorumAccountFlagGroup := hn
    simp only [excludeLoop, hg, hn1, if_false]
    exact ih (i + 1) s fun j h1 h2 => h j (by omega) (by omega)

theorem rangeRemove_length_le : ∀ l : List FlagGroup, (rangeRemove l).length ≤ l.length
  | [] => by simp [rangeRemove]
  | [g] => by
    by_cases h : g.Name = quorumAccountFlagGroup <;> simp [rangeRemove, h]
  | g :: g1 :: rest => by
    have h1 := rangeRemove_length_le rest
    have h2 := rangeRemove_length_le (g1 :: rest)
    by_cases h : g.Name = quorumAccountFlagGroup
    · simp only [rangeRemove, h, if_true, List.length_cons]; omega
    · simp only [rangeRemove, h, if_false, List.length_cons] at h2 ⊢; omega

theorem removeAt_split (done rest tail : List FlagGroup) (g L : FlagGroup) :
    removeAt ⟨done ++ (g :: (rest ++ (L :: tail))), done.length + (rest.length + 1) + 1⟩ done.length
      = ⟨done ++ (rest ++ (L :: (L :: tail))), done.length + rest.length + 1⟩ := by
  have e1 : (done ++ (g :: (rest ++ (L :: tail)))).take done.length = done := by simp
  have e2 : (done ++ (g :: (rest ++ (L :: tail)))).drop (done.length + 1) = rest ++ (L :: tail) := by
    rw [List.drop_append_eq_append_drop]
    simp
  have e3 : (done ++ (g :: (rest ++ (L :: tail)))).drop (done.length + (rest.length + 1) + 1 - 1)
      = L :: tail := by
    have : done.length + (rest.length + 1) + 1 - 1 = (done ++ (g :: rest)).length := by simp
    rw [this]
    have e : done ++ (g :: (rest ++ (L :: tail))) = (done ++ (g :: rest)) ++ (L :: tail) := by simp
    rw [e, List.drop_left]
  have e4 : (rest ++ (L :: tail)).take (done.length + (rest.length + 1) + 1 - (done.length + 1))
      = rest ++ [L] := by
    have : done.length + (rest.length + 1) + 1 - (done.length + 1) = (rest ++ [L]).length := by simp
    rw [this]
    have e : rest ++ (L :: tail) = (rest ++ [L]) ++ tail := by simp
    rw [e, List.take_left]
  simp only [removeAt, e1, e2, e3, e4]
  simp
  omega

theorem getElem?_at (done t : List FlagGroup) (g : FlagGroup) :
    (done ++ (g :: t))[done.length]? = some g := by
  rw [List.getElem?_append_right (Nat.le_refl _)]
  simp

theorem getElem?_mid (a b c : List FlagGroup) (j : Nat) (h1 : a.length ≤ j)
    (h2 : j < a.length + b.length) : ∃ g, (a ++ (b ++ c))[j]? = some g ∧ g ∈ b := by
  have hj : j - a.length < b.length := by omega
  refine ⟨b[j - a.length], ?_, List.getElem_mem _⟩
  rw [List.getElem?_append_right h1, List.getElem?_append_left hj]
  simp

theorem excludeLoop_step_shown (k i : Nat) (s : GroupSlice) (g : FlagGroup)
    (hget : s.arr[i]? = some g) (h : g.shown) :
    excludeLoop (k + 1) i s = excludeLoop k (i + 1) s := by
  have hn : ¬ g.Name = quorumAccountFlagGroup := h
  simp only [excludeLoop, hget, hn, if_false]

theorem excludeLoop_step_hidden (k : Nat) (done rest tail : List FlagGroup) (g L : FlagGroup)
    (h : g.Name = quorumAccountFlagGroup) :
    excludeLoop (k + 1) done.length
        ⟨done ++ (g :: (rest ++ (L :: tail))), done.length + (rest.length + 1) + 1⟩
      = excludeLoop k (done.length + 1)
        ⟨done ++ (rest ++ (L :: (L :: tail))), done.length + rest.length + 1⟩ := by
  have hle : done.length + 1 ≤ done.length + (rest.length + 1) + 1 := by omega
  rw [excludeLoop]
  simp only [getElem?_at, h, if_true, hle, removeAt_split]

theorem excludeLoop_spec : ∀ (todo done dups junk : List FlagGroup) (L : FlagGroup) (k : Nat),
    L.shown → (∀ d ∈ dups, d.shown) → k = todo.length + 1 + dups.length →
    ∃ arr, excludeLoop k done.length
        ⟨done ++ (todo ++ (L :: (dups ++ junk))), done.length + todo.length + 1⟩
        = (⟨arr, done.length + (rangeRemove todo).length + 1⟩, none)
      ∧ arr.take (done.length + (rangeRemove todo).length + 1) = done ++ (rangeRemove todo ++ [L])
  | [], done, dups, junk, L, k, hL, hd, hk => by
    refine ⟨done ++ (L :: (dups ++ junk)), ?_, ?_⟩
    · simp only [List.nil_append, rangeRemove, List.length_nil, Nat.add_zero]
      apply excludeLoop_shown
      intro j h1 h2
      obtain ⟨g, hg, hm⟩ := getElem?_mid done (L :: dups) junk j h1 (by simp at hk ⊢; omega)
      refine ⟨g, by simpa using hg, ?_⟩
      rcases List.mem_cons.1 hm with rfl | hm
      · exact hL
      · exact hd g hm
    · have e : done ++ (L :: (dups ++ junk)) = (done ++ [L]) ++ (dups ++ junk) := by simp
      have e2 : done.length + (rangeRemove []).length + 1 = (done ++ [L]).length := by
        simp [rangeRemove]
      rw [e, e2, List.take_left]
      simp [rangeRemove]
  | [g], done, dups, junk, L, k, hL, hd, hk => by
    by_cases h : g.Name = quorumAccountFlagGroup
    · refine ⟨done ++ (L :: (L :: (dups ++ junk))), ?_, ?_⟩
      · have hk1 : k = (1 + dups.length) + 1 := by simp at hk; omega
        have hst := excludeLoop_step_hidden (1 + dups.length) done [] (dups ++ junk) g L h
        simp only [List.nil_append, List.length_nil, Nat.zero_add, Nat.add_zero] at hst
        simp only [hk1, List.singleton_append, List.length_singleton, rangeRemove, h, if_true,
          List.length_nil, Nat.add_zero]
        rw [hst]
        apply excludeLoop_shown
        intro j h1 h2
        obtain ⟨x, hx, hm⟩ := getElem?_mid (done ++ [L]) (L :: dups) junk j (by simp; omega)
          (by simp; omega)
        refine ⟨x, by simpa using hx, ?_⟩
        rcases List.mem_cons.1 hm with rfl | hm
        · exact hL
        · exact hd x hm
      · have e : done ++ (L :: (L :: (dups ++ junk))) = (done ++ [L]) ++ (L :: (dups ++ junk)) := by
          simp
        have e2 : done.length + (rangeRemove [g]).length + 1 = (done ++ [L]).length := by
          simp [rangeRemove, h]
        rw [e, e2, List.take_left]
        simp [rangeRemove, h]
    · obtain ⟨arr, h1, h2⟩ := excludeLoop_spec [] (done ++ [g]) dups junk L (1 + dups.length) hL hd
        (by simp)
      refine ⟨arr, ?_, ?_⟩
      · have hk1 : k = (1 + dups.length) + 1 := by simp at hk; omega
        rw [hk1, excludeLoop_step_shown _ _ _ g (by simpa using getElem?_at done _ g) h]
        simp only [rangeRemove, h, if_false, List.length_singleton]
        simpa [rangeRemove, Nat.add_assoc] using h1
      · simpa [rangeRemove, h, Nat.add_assoc] using h2
  | g :: g1 :: rest, done, dups, junk, L, k, hL, hd, hk => by
    have hk1 : k = (rest.length + 1 + 1 + dups.length) + 1 := by simp at hk; omega
    by_cases h : g.Name = quorumAccountFlagGroup
    · obtain ⟨arr, h1, h2⟩ := excludeLoop_spec rest (done ++ [g1]) (L :: dups) junk L
        (rest.length + 1 + 1 + dups.length) hL
        (by
          intro d hdm
          rcases List.mem_cons.1 hdm with rfl | hdm
          · exact hL
          · exact hd d hdm)
        (by simp; omega)
      refine ⟨arr, ?_, ?_⟩
      · have hst := excludeLoop_step_hidden (rest.length + 1 + 1 + dups.length) done (g1 :: rest)
          (dups ++ junk) g L h
        have e1 : (⟨done ++ (g :: g1 :: rest ++ (L :: (dups ++ junk))),
            done.length + (g :: g1 :: rest).length + 1⟩ : GroupSlice)
            = ⟨done ++ (g :: ((g1 :: rest) ++ (L :: (dups ++ junk)))),
              done.length + ((g1 :: rest).length + 1) + 1⟩ := by
          congr 1
        rw [hk1, e1, hst]
        have e2 : (⟨done ++ ((g1 :: rest) ++ (L :: (L :: (dups ++ junk)))),
            done.length + (g1 :: rest).length + 1⟩ : GroupSlice)
            = ⟨(done ++ [g1]) ++ (rest ++ (L :: ((L :: dups) ++ junk))),
              (done ++ [g1]).length + rest.length + 1⟩ := by
          congr 1
          · simp
          · simp; omega
        have e3 : done.length + 1 = (done ++ [g1]).length := by simp
        have e5 : done.length + (rangeRemove (g :: g1 :: rest)).length + 1
            = (done ++ [g1]).length + (rangeRemove rest).length + 1 := by
          simp only [rangeRemove, h, if_true, List.length_cons, List.length_append,
            List.length_nil]
          omega
        rw [e2, e3, h1, e5]
      · simp only [rangeRemove, h, if_true, List.length_cons]
        have e4 : done.length + ((rangeRemove rest).length + 1) + 1
            = (done ++ [g1]).length + (rangeRemove rest).length + 1 := by
          simp only [List.length_append, List.length_cons, List.length_nil]
          omega
        rw [e4, h2]
        simp
    · obtain ⟨arr, h1, h2⟩ := excludeLoop_spec (g1 :: rest) (done ++ [g]) dups junk L
        (rest.length + 1 + 1 + dups.length) hL hd (by simp only [List.length_cons])
      refine ⟨arr, ?_, ?_⟩
      · rw [hk1, excludeLoop_step_shown _ _ _ g
          (by simpa using getElem?_at done (g1 :: rest ++ (L :: (dups ++ junk))) g) h]
        have e2 : (⟨done ++ (g :: g1 :: rest ++ (L :: (dups ++ junk))),
            done.length + (g :: g1 :: rest).length + 1⟩ : GroupSlice)
            = ⟨(done ++ [g]) ++ ((g1 :: rest) ++ (L :: (dups ++ junk))),
              (done ++ [g]).length + (g1 :: rest).length + 1⟩ := by
          congr 1
          · simp
          · simp; omega
        have e3 : done.length + 1 = (done ++ [g]).length := by simp
        have e5 : done.length + (rangeRemove (g :: g1 :: rest)).length + 1
            = (done ++ [g]).length + (rangeRemove (g1 :: rest)).length + 1 := by
          simp only [rangeRemove, h, if_false, List.length_cons, List.length_append,
            List.length_nil]
          omega
        rw [e2, e3, h1, e5]
      · simp only [rangeRemove, h, if_false, List.length_cons]
        have e4 : done.length + ((rangeRemove (g1 :: rest)).length + 1) + 1
            = (done ++ [g]).length + (rangeRemove (g1 :: rest)).length + 1 := by
          simp only [List.length_append, List.length_cons, List.length_nil]
          omega
        rw [e4, h2]
        simp
termination_by todo => todo.length

/-! ## Theorems: staging and its revert -/

theorem setFlags_at (front junk : List FlagGroup) (g : FlagGroup) (fl : List Flag) :
    setFlags (front ++ (g :: junk)) front.length fl = front ++ ({ g with Flags := fl } :: junk) := by
  induction front with
  | nil => rfl
  | cons a front ih => simp [setFlags, ih]

theorem take_split (arr front : List FlagGroup) (L : FlagGroup)
    (h : arr.take (front.length + 1) = front ++ [L]) :
    arr = front ++ (L :: arr.drop (front.length + 1)) := by
  have := List.take_append_drop (front.length + 1) arr
  rw [h] at this
  simpa using this.symm

theorem toList_split (s : GroupSlice) (front junk : List FlagGroup) (L : FlagGroup)
    (hs : s.arr = front ++ (L :: junk)) (hl : s.len = front.length + 1) :
    s.toList = front ++ [L] := by
  have e : front ++ (L :: junk) = (front ++ [L]) ++ junk := by simp
  have e2 : front.length + 1 = (front ++ [L]).length := by simp
  rw [GroupSlice.toList, hs, hl, e, e2, List.take_left]

theorem stage_split (s : GroupSlice) (front junk : List FlagGroup) (L : FlagGroup) (unc : List Flag)
    (hs : s.arr = front ++ (L :: junk)) (hl : s.len = front.length + 1) :
    stage s unc = .ok (⟨front ++ (L.extend unc :: junk), front.length + 1⟩, L.Flags.length) := by
  have h0 : ¬ s.len = 0 := by omega
  have hget : s.arr[s.len - 1]? = some L := by
    rw [hs, hl, Nat.add_sub_cancel]
    exact getElem?_at front junk L
  simp only [stage, h0, if_false, hget]
  rw [hs, hl, Nat.add_sub_cancel, setFlags_at]
  rfl

theorem unstage_split (front junk : List FlagGroup) (L : FlagGroup) (unc : List Flag) :
    unstage ⟨front ++ (L.extend unc :: junk), front.length + 1⟩ L.Flags.length
      = .ok ⟨front ++ (L :: junk), front.length + 1⟩ := by
  have hget : (front ++ (L.extend unc :: junk))[front.length + 1 - 1]? = some (L.extend unc) := by
    rw [Nat.add_sub_cancel]
    exact getElem?_at front junk _
  have hle : L.Flags.length ≤ (L.extend unc).Flags.length := by simp [FlagGroup.extend]
  simp only [unstage, Nat.add_one_ne_zero, if_false, hget, hle, if_true]
  rw [Nat.add_sub_cancel, setFlags_at]
  simp [FlagGroup.extend]

theorem extend_nil (L : FlagGroup) : L.extend [] = L := by
  simp [FlagGroup.extend]

theorem extend_shown (L : FlagGroup) (unc : List Flag) (h : L.shown) : (L.extend unc).shown := h

theorem exclude_split (front junk : List FlagGroup) (L : FlagGroup) (hL : L.shown) :
    ∃ junk1, exclude ⟨front ++ (L :: junk), front.length + 1⟩
      = (⟨rangeRemove front ++ (L :: junk1), (rangeRemove front).length + 1⟩, none) := by
  obtain ⟨arr, h1, h2⟩ := excludeLoop_spec front [] [] junk L (front.length + 1) hL
    (by simp) (by simp)
  simp only [List.nil_append, List.length_nil, Nat.zero_add] at h1 h2
  refine ⟨arr.drop ((rangeRemove front).length + 1), ?_⟩
  rw [exclude, h1, ← take_split arr (rangeRemove front) L h2]

theorem excludeAndRender_none (env : Env) (tmpl : GoString) (data : Payload)
    (front junk : List FlagGroup) (L : FlagGroup) (hL : L.shown) :
    ∃ junk1, excludeAndRender env tmpl data ⟨front ++ (L :: junk), front.length + 1⟩ none
      = ⟨⟨rangeRemove front ++ (L :: junk1), (rangeRemove front).length + 1⟩,
          some (tmpl, .helpData data (rangeRemove front ++ [L])),
          env.originalHelpPrinter tmpl (.helpData data (rangeRemove front ++ [L]))⟩ := by
  obtain ⟨junk1, h⟩ := exclude_split front junk L hL
  refine ⟨junk1, ?_⟩
  simp only [excludeAndRender, h, runDeferred]
  rw [toList_split _ (rangeRemove front) junk1 L rfl rfl]

theorem excludeAndRender_some (env : Env) (tmpl : GoString) (data : Payload)
    (front junk : List FlagGroup) (L : FlagGroup) (unc : List Flag) (hL : L.shown) :
    ∃ junk1, excludeAndRender env tmpl data ⟨front ++ (L.extend unc :: junk), front.length + 1⟩
        (some L.Flags.length)
      = ⟨⟨rangeRemove front ++ (L :: junk1), (rangeRemove front).length + 1⟩,
          some (tmpl, .helpData data (rangeRemove front ++ [L.extend unc])),
          env.originalHelpPrinter tmpl (.helpData data (rangeRemove front ++ [L.extend unc]))⟩ := by
  obtain ⟨junk1, h⟩ := exclude_split front junk (L.extend unc) (extend_shown L unc hL)
  refine ⟨junk1, ?_⟩
  simp only [excludeAndRender, h, runDeferred, unstage_split]
  rw [toList_split _ (rangeRemove front) junk1 (L.extend unc) rfl rfl]

/-- The app-help branch on a registry whose last group does not bear the
hidden name: the view it hands over, the outcome, and the registry it leaves. -/
theorem appHelp_shape (env : Env) (tmpl : GoString) (flags : List Flag) (s : GroupSlice)
    (front junk : List FlagGroup) (L : FlagGroup)
    (hs : s.arr = front ++ (L :: junk)) (hl : s.len = front.length + 1) (hL : L.shown) :
    ∃ junk1, appHelp env tmpl (.app flags) s
      = ⟨⟨rangeRemove front ++ (L :: junk1), (rangeRemove front).length + 1⟩,
          some (tmpl, .helpData (.app flags)
            (rangeRemove front ++ [L.extend (uncategorized (front ++ [L]) env.DeprecatedFlags flags)])),
          env.originalHelpPrinter tmpl (.helpData (.app flags)
            (rangeRemove front ++ [L.extend (uncategorized (front ++ [L]) env.DeprecatedFlags flags)]))⟩ := by
  have hsplit : s = ⟨front ++ (L :: junk), front.length + 1⟩ := by
    cases s; simp only at hs hl; subst hs; subst hl; rfl
  have ht := toList_split s front junk L hs hl
  by_cases hu : (uncategorized (front ++ [L]) env.DeprecatedFlags flags).length > 0
  · obtain ⟨junk1, h⟩ := excludeAndRender_some env tmpl (.app flags) front junk L
      (uncategorized (front ++ [L]) env.DeprecatedFlags flags) hL
    refine ⟨junk1, ?_⟩
    simp only [appHelp, ht, hu, if_true, stage_split s front junk L _ hs hl, h]
  · obtain ⟨junk1, h⟩ := excludeAndRender_none env tmpl (.app flags) front junk L hL
    refine ⟨junk1, ?_⟩
    have hnil : uncategorized (front ++ [L]) env.DeprecatedFlags flags = [] := by
      cases hc : uncategorized (front ++ [L]) env.DeprecatedFlags flags with
      | nil => rfl
      | cons a t => rw [hc] at hu; simp at hu
    simp only [appHelp, ht, hu, if_false]
    rw [hsplit, h, hnil, extend_nil]

/-! ## Theorems: the printer on the app-help template -/

theorem HelpPrinter_app (env : Env) (data : Payload) (s : GroupSlice) :
    HelpPrinter env env.AppHelpTemplate data s = appHelp env env.AppHelpTemplate data s := by
  simp [HelpPrinter]

theorem ofList_wf (R : List FlagGroup) : (GroupSlice.ofList R).wf := Nat.le_refl _

theorem slice_cases (s : GroupSlice) (hwf : s.wf) :
    s.len = 0 ∨ ∃ front L junk, s.arr = front ++ (L :: junk) ∧ s.len = front.length + 1 := by
  by_cases h0 : s.len = 0
  · exact Or.inl h0
  · right
    have hlt : s.len - 1 < s.arr.length := by
      have : s.len ≤ s.arr.length := hwf
      omega
    refine ⟨s.arr.take (s.len - 1), s.arr[s.len - 1], s.arr.drop (s.len - 1 + 1), ?_, ?_⟩
    · rw [← List.drop_eq_getElem_cons hlt, List.take_append_drop]
    · rw [List.length_take]
      omega

theorem exclude_zero (s : GroupSlice) (h0 : s.len = 0) : exclude s = (s, none) := by
  simp [exclude, h0, excludeLoop]

theorem appHelp_empty_registry (env : Env) (tmpl : GoString) (data : Payload) (s : GroupSlice)
    (h0 : s.len = 0) : (appHelp env tmpl data s).registry = s := by
  cases data with
  | app flags =>
    by_cases hu : (uncategorized s.toList env.DeprecatedFlags flags).length > 0
    · simp [appHelp, hu, stage, h0]
    · simp [appHelp, hu, excludeAndRender, exclude_zero s h0, runDeferred]
  | command flags => rfl
  | other tag => rfl

theorem fallbackShown_split (front : List FlagGroup) (L : FlagGroup)
    (h : fallbackShown (front ++ [L])) : L.shown :=
  h L (by simp)

/-- Claim C1, amended.  For every registered flag list, deprecated list and
registry whose last group does not bear the hidden name, after the app-help
call (whether the original printer succeeds or fails) the flag sequence of the
last group of the registry equals its value before the call. -/
theorem fallback_restored (env : Env) (flags : List Flag) (s : GroupSlice)
    (hwf : s.wf) (hlast : fallbackShown s.toList) :
    (HelpPrinter env env.AppHelpTemplate (.app flags) s).registry.fallbackFlags
      = s.fallbackFlags := by
  rw [HelpPrinter_app]
  rcases slice_cases s hwf with h0 | ⟨front, L, junk, hs, hl⟩
  · rw [appHelp_empty_registry env _ _ s h0]
  · have ht := toList_split s front junk L hs hl
    rw [ht] at hlast
    obtain ⟨junk1, h⟩ := appHelp_shape env env.AppHelpTemplate flags s front junk L hs hl
      (fallbackShown_split front L hlast)
    rw [h]
    simp only [GroupSlice.fallbackFlags, ht]
    rw [toList_split _ (rangeRemove front) junk1 L rfl rfl]
    simp

/-- Witness for `fallback_restored`: the registry of the example, a flag in no
group, and an original printer that fails. -/
theorem fallback_restored_witness :
    (HelpPrinter (failingEnv [] .insertion) "app" (.app [flagX, flagY, flagZ, flagW])
        (.ofList registryNetMisc)).registry.fallbackFlags
      = (GroupSlice.ofList registryNetMisc).fallbackFlags :=
  fallback_restored (failingEnv [] .insertion) [flagX, flagY, flagZ, flagW]
    (.ofList registryNetMisc) (Nat.le_refl 2) (by
      intro g hg
      simp [GroupSlice.toList, GroupSlice.ofList, registryNetMisc] at hg
      subst hg
      decide)

/-- Claim C1 as stated fails.  With the hidden group last, the flag in no group
is staged on the hidden group, that group is removed, and the deferred
function truncates the group that is last by then: the last group of the
registry is `[h]` before the call and `[x]` after it, and `Net` has lost `y`. -/
theorem fallback_not_restored_hidden_last :
    (GroupSlice.ofList registryHiddenLast).fallbackFlags = some [flagH]
    ∧ (HelpPrinter (exampleEnv [] .insertion) "app" (.app [flagW])
        (.ofList registryHiddenLast)).registry.fallbackFlags = some [flagX]
    ∧ (HelpPrinter (exampleEnv [] .insertion) "app" (.app [flagW])
        (.ofList registryHiddenLast)).registry.toList = [⟨"Net", [flagX]⟩] := by
  decide

/-! ## Theorems: at most one hidden group -/

theorem hiddenCount_zero (l : List FlagGroup) : hiddenCount l = 0 ↔ ∀ g ∈ l, g.shown := by
  simp [hiddenCount, List.countP_eq_zero, FlagGroup.shown]

theorem hiddenCount_cons (g : FlagGroup) (l : List FlagGroup) :
    hiddenCount (g :: l) = hiddenCount l + (if g.Name = quorumAccountFlagGroup then 1 else 0) := by
  simp [hiddenCount, List.countP_cons]

theorem hiddenCount_append (l1 l2 : List FlagGroup) :
    hiddenCount (l1 ++ l2) = hiddenCount l1 + hiddenCount l2 := by
  simp [hiddenCount, List.countP_append]

theorem rangeRemove_of_shown : ∀ l : List FlagGroup, (∀ g ∈ l, g.shown) → rangeRemove l = l
  | [], _ => rfl
  | [g], h => by
    have hg : ¬ g.Name = quorumAccountFlagGroup := h g (by simp)
    simp [rangeRemove, hg]
  | g :: g1 :: rest, h => by
    have hg : ¬ g.Name = quorumAccountFlagGroup := h g (by simp)
    have ih := rangeRemove_of_shown (g1 :: rest) fun x hx => h x (List.mem_cons_of_mem _ hx)
    simp [rangeRemove, hg, ih]

theorem filter_of_shown (l : List FlagGroup) (h : ∀ g ∈ l, g.shown) :
    l.filter (fun g => !decide (g.Name = quorumAccountFlagGroup)) = l := by
  rw [List.filter_eq_self]
  intro g hg
  have : ¬ g.Name = quorumAccountFlagGroup := h g hg
  simp [this]

theorem rangeRemove_eq_filter : ∀ l : List FlagGroup, hiddenCount l ≤ 1 →
    rangeRemove l = l.filter fun g => !decide (g.Name = quorumAccountFlagGroup)
  | [], _ => rfl
  | [g], _ => by
    by_cases hg : g.Name = quorumAccountFlagGroup <;> simp [rangeRemove, hg]
  | g :: g1 :: rest, h => by
    rw [hiddenCount_cons] at h
    by_cases hg : g.Name = quorumAccountFlagGroup
    · simp only [hg, if_true] at h
      have hz : hiddenCount (g1 :: rest) = 0 := by omega
      have hs := (hiddenCount_zero _).1 hz
      have hs' : ∀ x ∈ rest, x.shown := fun x hx => hs x (List.mem_cons_of_mem _ hx)
      have e := filter_of_shown (g1 :: rest) hs
      simp only [rangeRemove, hg, if_true, rangeRemove_of_shown rest hs']
      rw [List.filter_cons_of_neg (by simp [hg]), e]
    · simp only [hg, if_false, Nat.add_zero] at h
      have ih := rangeRemove_eq_filter (g1 :: rest) h
      simp only [rangeRemove, hg, if_false]
      rw [List.filter_cons_of_pos (by simp [hg]), ih]

theorem excludeLoop_prefix (j : Nat) : ∀ (k i : Nat) (s : GroupSlice),
    (∀ m, i ≤ m → m < i + j → ∃ g, s.arr[m]? = some g ∧ g.shown) →
    excludeLoop (j + k) i s = excludeLoop k (i + j) s := by
  induction j with
  | zero => intro k i s _; simp
  | succ j ih =>
    intro k i s h
    obtain ⟨g, hg, hn⟩ := h i (Nat.le_refl i) (by omega)
    have e : j + 1 + k = (j + k) + 1 := by omega
    rw [e, excludeLoop_step_shown _ _ _ g hg hn, ih k (i + 1) s fun m h1 h2 => h m (by omega) (by omega)]
    congr 1
    omega

theorem exclude_hidden_last (front junk : List FlagGroup) (H : FlagGroup)
    (hfront : ∀ g ∈ front, g.shown) (hH : H.Name = quorumAccountFlagGroup) :
    exclude ⟨front ++ (H :: junk), front.length + 1⟩
      = (⟨front ++ (H :: junk), front.length⟩, none) := by
  have hpre := excludeLoop_prefix front.length 1 0 ⟨front ++ (H :: junk), front.length + 1⟩ (by
    intro m _ h2
    obtain ⟨g, hg, hm⟩ := getElem?_mid [] front (H :: junk) m (by simp) (by simpa using h2)
    exact ⟨g, by simpa using hg, hfront g hm⟩)
  rw [exclude, hpre, excludeLoop]
  simp only [Nat.zero_add, getElem?_at, hH, if_true, Nat.le_refl, excludeLoop, removeAt]
  simp

theorem appHelp_view_hidden_last (env : Env) (tmpl : GoString) (flags : List Flag) (s : GroupSlice)
    (front junk : List FlagGroup) (H : FlagGroup)
    (hs : s.arr = front ++ (H :: junk)) (hl : s.len = front.length + 1)
    (hfront : ∀ g ∈ front, g.shown) (hH : H.Name = quorumAccountFlagGroup) :
    (appHelp env tmpl (.app flags) s).view = some front := by
  have hsplit : s = ⟨front ++ (H :: junk), front.length + 1⟩ := by
    cases s; simp only at hs hl; subst hs; subst hl; rfl
  have htl : (⟨front ++ (H :: junk), front.length⟩ : GroupSlice).toList = front := by
    simp [GroupSlice.toList]
  by_cases hu : (uncategorized s.toList env.DeprecatedFlags flags).length > 0
  · have hx := exclude_hidden_last front junk (H.extend (uncategorized s.toList env.DeprecatedFlags flags))
      hfront hH
    have htl2 : (⟨front ++ (H.extend (uncategorized s.toList env.DeprecatedFlags flags) :: junk),
        front.length⟩ : GroupSlice).toList = front := by
      simp [GroupSlice.toList]
    simp only [appHelp, hu, if_true, stage_split s front junk H _ hs hl, excludeAndRender, hx,
      Result.view, htl2]
  · simp only [appHelp, hu, if_false]
    rw [hsplit]
    simp only [excludeAndRender, exclude_hidden_last front junk H hfront hH, Result.view, htl]

theorem toList_zero (s : GroupSlice) (h0 : s.len = 0) : s.toList = [] := by
  simp [GroupSlice.toList, h0]

theorem appHelp_view_empty_registry (env : Env) (tmpl : GoString) (flags : List Flag)
    (s : GroupSlice) (h0 : s.len = 0) (view : List FlagGroup)
    (hv : (appHelp env tmpl (.app flags) s).view = some view) : view = [] := by
  have ht := toList_zero s h0
  by_cases hu : (uncategorized [] env.DeprecatedFlags flags).length > 0
  · simp [appHelp, ht, hu, stage, h0, Result.view] at hv
  · simp only [appHelp, ht, hu, if_false, excludeAndRender, exclude_zero s h0, runDeferred,
      Result.view, Option.some.injEq] at hv
    exact hv.symm

theorem view_of_shape (reg : GroupSlice) (tmpl : GoString) (data : Payload)
    (groups : List FlagGroup) (out : Except Panic GoString) :
    (Result.mk reg (some (tmpl, .helpData data groups)) out).view = some groups := rfl

theorem mem_filter_shown (l : List FlagGroup) (g : FlagGroup)
    (h : g ∈ l.filter fun g => !decide (g.Name = quorumAccountFlagGroup)) : g.shown := by
  have := (List.mem_filter.1 h).2
  simpa [FlagGroup.shown] using this

/-- Claim C5, amended.  For every registry in which at most one group bears
the hidden name and every registered flag list, the view that the app-help
branch hands to the original printer contains no group with the hidden name;
and when the registry is not empty a view is handed over. -/
theorem hidden_group_absent (env : Env) (flags : List Flag) (s : GroupSlice)
    (hwf : s.wf) (hone : hiddenCount s.toList ≤ 1) :
    (s.toList ≠ [] →
      ∃ view, (HelpPrinter env env.AppHelpTemplate (.app flags) s).view = some view)
    ∧ ∀ view, (HelpPrinter env env.AppHelpTemplate (.app flags) s).view = some view →
        ∀ g ∈ view, g.Name ≠ quorumAccountFlagGroup := by
  rw [HelpPrinter_app]
  rcases slice_cases s hwf with h0 | ⟨front, L, junk, hs, hl⟩
  · refine ⟨fun hne => absurd (toList_zero s h0) hne, ?_⟩
    intro view hv g hg
    rw [appHelp_view_empty_registry env _ flags s h0 view hv] at hg
    simp at hg
  · have ht := toList_split s front junk L hs hl
    rw [ht, hiddenCount_append, hiddenCount_cons] at hone
    by_cases hL : L.Name = quorumAccountFlagGroup
    · simp only [hL, if_true, hiddenCount, List.countP_nil, Nat.zero_add] at hone
      have hz : hiddenCount front = 0 := by
        simp only [hiddenCount]
        omega
      have hfront := (hiddenCount_zero front).1 hz
      have hv := appHelp_view_hidden_last env env.AppHelpTemplate flags s front junk L hs hl hfront hL
      refine ⟨fun _ => ⟨front, hv⟩, ?_⟩
      intro view hview g hg
      rw [hv] at hview
      cases hview
      exact hfront g hg
    · obtain ⟨junk1, h⟩ := appHelp_shape env env.AppHelpTemplate flags s front junk L hs hl hL
      have hc : hiddenCount front ≤ 1 := by omega
      rw [h, view_of_shape, rangeRemove_eq_filter front hc]
      refine ⟨fun _ => ⟨_, rfl⟩, ?_⟩
      intro view hview g hg
      cases hview
      rcases List.mem_append.1 hg with hg | hg
      · exact mem_filter_shown front g hg
      · rw [List.mem_singleton.1 hg]
        exact hL

/-- Witness for `hidden_group_absent`: the hidden group between two others. -/
theorem hidden_group_absent_witness :
    ((GroupSlice.ofList registryHiddenMiddle).toList ≠ [] →
      ∃ view, (HelpPrinter (exampleEnv [] .insertion) "app" (.app [flagX, flagH, flagW])
        (.ofList registryHiddenMiddle)).view = some view)
    ∧ ∀ view, (HelpPrinter (exampleEnv [] .insertion) "app" (.app [flagX, flagH, flagW])
        (.ofList registryHiddenMiddle)).view = some view →
        ∀ g ∈ view, g.Name ≠ quorumAccountFlagGroup :=
  hidden_group_absent (exampleEnv [] .insertion) [flagX, flagH, flagW]
    (.ofList registryHiddenMiddle) (Nat.le_refl 3) (by decide)

/-- Claim C5 as stated fails.  With two neighbouring groups that bear the
hidden name, the loop removes the first, the second moves into the place just
visited and is not looked at: the view still has a group with the hidden name. -/
theorem hidden_group_present_when_twice :
    (HelpPrinter (exampleEnv [] .insertion) "app" (.app [flagW])
        (.ofList registryHiddenTwice)).view
      = some [⟨quorumAccountFlagGroup, [flagH]⟩, ⟨"Misc", [flagZ, flagW]⟩] := by
  decide

theorem slice_of_toList (s : GroupSlice) (hwf : s.wf) (front : List FlagGroup) (L : FlagGroup)
    (ht : s.toList = front ++ [L]) :
    ∃ junk, s.arr = front ++ (L :: junk) ∧ s.len = front.length + 1 := by
  rcases slice_cases s hwf with h0 | ⟨front1, L1, junk, hs, hl⟩
  · rw [toList_zero s h0] at ht
    simp at ht
  · have ht1 := toList_split s front1 junk L1 hs hl
    rw [ht] at ht1
    obtain ⟨e1, e2⟩ := List.append_inj' ht1 rfl
    simp only [List.cons.injEq, and_true] at e2
    subst e1; subst e2
    exact ⟨junk, hs, hl⟩

theorem specAppView_split (front : List FlagGroup) (L : FlagGroup) (D flags : List Flag)
    (hL : L.shown) :
    specAppView (front ++ [L]) D flags
      = front.filter (fun g => !decide (g.Name = quorumAccountFlagGroup))
        ++ [L.extend (uncategorized (front ++ [L]) D flags)] := by
  have hn : ¬ (L.extend (uncategorized (front ++ [L]) D flags)).Name = quorumAccountFlagGroup := hL
  simp [specAppView, List.filter_append, hn]

/-! ## Theorems: counting the occurrences of a flag in the view -/

theorem occurrences_nil (str : GoString) : occurrences str [] = 0 := rfl

theorem occurrences_cons (str : GoString) (g : FlagGroup) (l : List FlagGroup) :
    occurrences str (g :: l) = (g.Flags.map Flag.String).count str + occurrences str l := by
  simp [occurrences, categorized, List.count_append]

theorem occurrences_append (str : GoString) (l1 l2 : List FlagGroup) :
    occurrences str (l1 ++ l2) = occurrences str l1 + occurrences str l2 := by
  simp [occurrences, categorized, List.count_append]

theorem occurrences_extend (str : GoString) (L : FlagGroup) (extra : List Flag) :
    occurrences str [L.extend extra]
      = occurrences str [L] + (extra.map Flag.String).count str := by
  simp [occurrences, categorized, FlagGroup.extend, List.count_append]

theorem occurrences_filter (str : GoString) : ∀ l : List FlagGroup,
    (∀ g ∈ l, g.Name = quorumAccountFlagGroup → str ∉ g.Flags.map Flag.String) →
    occurrences str (l.filter fun g => !decide (g.Name = quorumAccountFlagGroup))
      = occurrences str l
  | [], _ => rfl
  | g :: l, h => by
    have ih := occurrences_filter str l fun x hx => h x (List.mem_cons_of_mem _ hx)
    by_cases hg : g.Name = quorumAccountFlagGroup
    · have hz : (g.Flags.map Flag.String).count str = 0 :=
        List.count_eq_zero.2 (h g (List.mem_cons_self _ _) hg)
      rw [List.filter_cons_of_neg (by simp [hg]), occurrences_cons, ih, hz, Nat.zero_add]
    · rw [List.filter_cons_of_pos (by simp [hg]), occurrences_cons, occurrences_cons, ih]

theorem count_uncategorized (str : GoString) (groups : List FlagGroup) (D : List Flag) :
    ∀ flags : List Flag,
    ((uncategorized groups D flags).map Flag.String).count str
      = if str ∈ categorized groups ∨ str ∈ deprecated D then 0
        else (flags.map Flag.String).count str
  | [] => by simp [uncategorized]
  | f :: flags => by
    have ih := count_uncategorized str groups D flags
    simp only [uncategorized] at ih ⊢
    by_cases hf : f.String ∈ categorized groups ∨ f.String ∈ deprecated D
    · have hneg : ¬ ((!decide (f.String ∈ categorized groups)
          && !decide (f.String ∈ deprecated D)) = true) := by
        rcases hf with hf | hf <;> simp [hf]
      rw [List.filter_cons, if_neg hneg, ih]
      by_cases hs : str ∈ categorized groups ∨ str ∈ deprecated D
      · simp [hs]
      · have hne : f.String ≠ str := by
          rintro rfl
          exact hs hf
        simp [hs, List.count_cons, hne]
    · have hpos : (!decide (f.String ∈ categorized groups)
          && !decide (f.String ∈ deprecated D)) = true := by
        have h1 : ¬ f.String ∈ categorized groups := fun h => hf (Or.inl h)
        have h2 : ¬ f.String ∈ deprecated D := fun h => hf (Or.inr h)
        simp [h1, h2]
      rw [List.filter_cons, if_pos hpos, List.map_cons, List.count_cons, ih]
      by_cases hs : str ∈ categorized groups ∨ str ∈ deprecated D
      · have hne : f.String ≠ str := by
          rintro rfl
          exact hf hs
        simp [hs, hne]
      · simp [hs, List.count_cons]

theorem groupsWith_cons (str : GoString) (g : FlagGroup) (l : List FlagGroup) :
    groupsWith str (g :: l)
      = groupsWith str l + (if str ∈ g.Flags.map Flag.String then 1 else 0) := by
  simp [groupsWith, List.countP_cons]

theorem groupsWith_of_occurrences_zero (str : GoString) : ∀ l : List FlagGroup,
    occurrences str l = 0 → groupsWith str l = 0
  | [], _ => rfl
  | g :: l, h => by
    rw [occurrences_cons] at h
    have h1 : (g.Flags.map Flag.String).count str = 0 := by omega
    have h2 : occurrences str l = 0 := by omega
    have hn : str ∉ g.Flags.map Flag.String := List.count_eq_zero.1 h1
    rw [groupsWith_cons, groupsWith_of_occurrences_zero str l h2]
    simp [hn]

theorem groupsWith_of_occurrences_one (str : GoString) : ∀ l : List FlagGroup,
    occurrences str l = 1 → groupsWith str l = 1
  | [], h => by simp [occurrences_nil] at h
  | g :: l, h => by
    rw [occurrences_cons] at h
    rw [groupsWith_cons]
    by_cases hz : (g.Flags.map Flag.String).count str = 0
    · have hn : str ∉ g.Flags.map Flag.String := List.count_eq_zero.1 hz
      rw [groupsWith_of_occurrences_one str l (by omega)]
      simp [hn]
    · have hy : str ∈ g.Flags.map Flag.String := by
        by_contra hn
        exact hz (List.count_eq_zero.2 hn)
      rw [groupsWith_of_occurrences_zero str l (by omega)]
      simp [hy]

theorem view_filtered (env : Env) (flags : List Flag) (s : GroupSlice)
    (front : List FlagGroup) (L : FlagGroup) (hwf : s.wf) (ht : s.toList = front ++ [L])
    (hL : L.Name ≠ quorumAccountFlagGroup) (hone : hiddenCount front ≤ 1) :
    (HelpPrinter env env.AppHelpTemplate (.app flags) s).view
      = some (front.filter (fun g => !decide (g.Name = quorumAccountFlagGroup))
          ++ [L.extend (uncategorized (front ++ [L]) env.DeprecatedFlags flags)]) := by
  obtain ⟨junk, hs, hl⟩ := slice_of_toList s hwf front L ht
  obtain ⟨junk1, h⟩ := appHelp_shape env env.AppHelpTemplate flags s front junk L hs hl hL
  rw [HelpPrinter_app, h, view_of_shape, rangeRemove_eq_filter front hone]

/-! ## Theorems: the groups of the view come from the registry -/

theorem removeAt_wf (s : GroupSlice) (i : Nat) (hwf : s.wf) (hi : i + 1 ≤ s.len) :
    (removeAt s i).wf := by
  have h : s.len ≤ s.arr.length := hwf
  simp only [GroupSlice.wf, removeAt, List.length_append, List.length_take, List.length_drop]
  omega

theorem removeAt_toList (s : GroupSlice) (i : Nat) (hwf : s.wf) (hi : i + 1 ≤ s.len) :
    (removeAt s i).toList = s.arr.take i ++ (s.arr.drop (i + 1)).take (s.len - (i + 1)) := by
  have h : s.len ≤ s.arr.length := hwf
  have hlen : (s.arr.take i ++ (s.arr.drop (i + 1)).take (s.len - (i + 1))).length = s.len - 1 := by
    simp only [List.length_append, List.length_take, List.length_drop]
    omega
  simp only [GroupSlice.toList, removeAt]
  rw [← hlen, List.take_left]

theorem removeAt_subset (s : GroupSlice) (i : Nat) (hwf : s.wf) (hi : i + 1 ≤ s.len) :
    ∀ g ∈ (removeAt s i).toList, g ∈ s.toList := by
  intro g hg
  rw [removeAt_toList s i hwf hi] at hg
  rcases List.mem_append.1 hg with hg | hg
  · have e : s.arr.take i = (s.arr.take s.len).take i := by
      rw [List.take_take, Nat.min_eq_left (by omega)]
    rw [e] at hg
    exact List.mem_of_mem_take hg
  · have e : (s.arr.drop (i + 1)).take (s.len - (i + 1)) = (s.arr.take s.len).drop (i + 1) := by
      rw [List.drop_take]
    rw [e] at hg
    exact List.mem_of_mem_drop hg

theorem excludeLoop_subset (k : Nat) : ∀ (i : Nat) (s : GroupSlice), s.wf →
    ∀ g ∈ (excludeLoop k i s).1.toList, g ∈ s.toList := by
  induction k with
  | zero => intro i s _ g hg; exact hg
  | succ k ih =>
    intro i s hwf g hg
    rw [excludeLoop] at hg
    cases hget : s.arr[i]? with
    | none => simpa [hget] using hg
    | some group =>
      simp only [hget] at hg
      by_cases hn : group.Name = quorumAccountFlagGroup
      · by_cases hi : i + 1 ≤ s.len
        · simp only [hn, hi, if_true] at hg
          exact removeAt_subset s i hwf hi g (ih (i + 1) (removeAt s i) (removeAt_wf s i hwf hi) g hg)
        · simpa [hn, hi] using hg
      · simp only [hn, if_false] at hg
        exact ih (i + 1) s hwf g hg

theorem excludeAndRender_view_subset (env : Env) (tmpl : GoString) (data : Payload)
    (s1 : GroupSlice) (miscs : Option Nat) (hwf : s1.wf) (view : List FlagGroup)
    (hv : (excludeAndRender env tmpl data s1 miscs).view = some view) :
    ∀ g ∈ view, g ∈ s1.toList := by
  have hsub := excludeLoop_subset s1.len 0 s1 hwf
  rw [← exclude] at hsub
  unfold excludeAndRender at hv
  rcases hx : exclude s1 with ⟨s2, p⟩
  rw [hx] at hv hsub
  cases p with
  | some p => simp [Result.view] at hv
  | none =>
    simp only [Result.view, Option.some.injEq] at hv
    subst hv
    exact hsub

theorem mem_uncategorized (groups : List FlagGroup) (D flags : List Flag) (f : Flag)
    (h : f ∈ uncategorized groups D flags) :
    f ∈ flags ∧ f.String ∉ categorized groups ∧ f.String ∉ deprecated D := by
  have := List.mem_filter.1 h
  simpa using this

theorem mem_categorized (str : GoString) (groups : List FlagGroup) :
    str ∈ categorized groups ↔ ∃ g ∈ groups, str ∈ g.Flags.map Flag.String := by
  simp only [categorized, List.mem_map, List.mem_flatMap]
  constructor
  · rintro ⟨f, ⟨g, hg, hf⟩, rfl⟩
    exact ⟨g, hg, f, hf, rfl⟩
  · rintro ⟨g, hg, f, hf, rfl⟩
    exact ⟨f, ⟨g, hg, hf⟩, rfl⟩

/-- Every canonical string in the view of the app-help branch is that of a
flag of a group of the registry or of a flag of the uncategorized residue. -/
theorem view_strings (env : Env) (tmpl : GoString) (flags : List Flag) (s : GroupSlice)
    (hwf : s.wf) (view : List FlagGroup)
    (hv : (appHelp env tmpl (.app flags) s).view = some view) (str : GoString)
    (hstr : str ∈ categorized view) :
    str ∈ categorized s.toList
      ∨ str ∈ (uncategorized s.toList env.DeprecatedFlags flags).map Flag.String := by
  rcases slice_cases s hwf with h0 | ⟨front, L, junk, hs, hl⟩
  · rw [appHelp_view_empty_registry env tmpl flags s h0 view hv] at hstr
    simp [categorized] at hstr
  · have ht := toList_split s front junk L hs hl
    obtain ⟨g, hg, hgs⟩ := (mem_categorized str view).1 hstr
    have hsplit : s = ⟨front ++ (L :: junk), front.length + 1⟩ := by
      cases s; simp only at hs hl; subst hs; subst hl; rfl
    by_cases hu : (uncategorized s.toList env.DeprecatedFlags flags).length > 0
    · simp only [appHelp, hu, if_true, stage_split s front junk L _ hs hl] at hv
      have hmem := excludeAndRender_view_subset env tmpl (.app flags) _ _ (by
        simp only [GroupSlice.wf, List.length_append, List.length_cons]
        omega) view hv g hg
      rw [toList_split _ front junk _ rfl rfl] at hmem
      rcases List.mem_append.1 hmem with hm | hm
      · left
        rw [ht]
        exact (mem_categorized str _).2 ⟨g, List.mem_append_left _ hm, hgs⟩
      · rw [List.mem_singleton.1 hm] at hgs
        simp only [FlagGroup.extend, List.map_append, List.mem_append] at hgs
        rcases hgs with h1 | h1
        · left
          rw [ht]
          exact (mem_categorized str _).2 ⟨L, by simp, h1⟩
        · right
          exact h1
    · simp only [appHelp, hu, if_false] at hv
      have hmem := excludeAndRender_view_subset env tmpl (.app flags) s none hwf view hv g hg
      left
      exact (mem_categorized str _).2 ⟨g, hmem, hgs⟩

/-- Claim C3, amended.  For every registered flag list, deprecated list and
registry, a canonical string of the deprecated list that is the string of no
flag of a group of the registry is the string of no flag of a group of the
view handed to the original printer by the app-help branch, even when a flag
with that string is registered. -/
theorem deprecated_not_staged (env : Env) (flags : List Flag) (s : GroupSlice) (hwf : s.wf)
    (view : List FlagGroup)
    (hv : (HelpPrinter env env.AppHelpTemplate (.app flags) s).view = some view)
    (str : GoString) (hD : str ∈ deprecated env.DeprecatedFlags)
    (hR : str ∉ categorized s.toList) : str ∉ categorized view := by
  rw [HelpPrinter_app] at hv
  intro hstr
  rcases view_strings env _ flags s hwf view hv str hstr with h | h
  · exact hR h
  · obtain ⟨f, hf, rfl⟩ := List.mem_map.1 h
    exact (mem_uncategorized _ _ _ f hf).2.2 hD

/-- Witness for `deprecated_not_staged`: the flag `W` is registered, deprecated
and in no group. -/
theorem deprecated_not_staged_witness :
    "--w" ∉ categorized [⟨"Net", [flagX, flagY]⟩, ⟨"Misc", [flagZ]⟩] :=
  deprecated_not_staged (exampleEnv [flagW] .insertion) [flagX, flagW]
    (.ofList registryNetMisc) (Nat.le_refl 2) [⟨"Net", [flagX, flagY]⟩, ⟨"Misc", [flagZ]⟩]
    (by decide) "--w" (by decide) (by decide)

/-- Claim C3 as stated fails.  A deprecated flag that a group of the registry
lists, as the group `Aliased (deprecated)` of `AppHelpFlagGroups` does, is in
that group of the view. -/
theorem deprecated_flag_in_view :
    (HelpPrinter (exampleEnv [flagY] .insertion) "app" (.app [flagY, flagZ])
        (.ofList [⟨"Aliased (deprecated)", [flagY]⟩, ⟨"Misc", [flagZ]⟩])).view
      = some [⟨"Aliased (deprecated)", [flagY]⟩, ⟨"Misc", [flagZ]⟩]
    ∧ flagY.String ∈ deprecated (exampleEnv [flagY] .insertion).DeprecatedFlags := by
  decide

/-! ## Theorems: the map of the command-help branch -/

theorem FlagMap.has_iff (m : FlagMap) (key : GoString) :
    m.has key = true ↔ key ∈ m.map Prod.fst := by
  simp only [FlagMap.has, List.any_eq_true, decide_eq_true_eq, List.mem_map]

theorem FlagMap.set_keys (m : FlagMap) (key : GoString) (v : List Flag) :
    (m.set key v).map Prod.fst
      = if m.has key then m.map Prod.fst else m.map Prod.fst ++ [key] := by
  by_cases h : m.has key = true
  · simp only [FlagMap.set, h, if_true, List.map_map]
    apply List.map_congr_left
    intro e _
    by_cases he : e.1 = key <;> simp [he]
  · simp [FlagMap.set, h]

theorem FlagMap.set_nodup (m : FlagMap) (key : GoString) (v : List Flag)
    (h : (m.map Prod.fst).Nodup) : ((m.set key v).map Prod.fst).Nodup := by
  rw [FlagMap.set_keys]
  by_cases hk : m.has key = true
  · simpa [hk] using h
  · have hn : key ∉ m.map Prod.fst := fun hin => hk ((FlagMap.has_iff m key).2 hin)
    simp only [hk]
    exact List.Nodup.append h (List.nodup_singleton key) (by
      intro x hx hx2
      rw [List.mem_singleton.1 hx2] at hx
      exact hn hx)

theorem FlagMap.set_mem (m : FlagMap) (key : GoString) (v : List Flag)
    (e : GoString × List Flag) (h : e ∈ m.set key v) : e ∈ m ∨ e = (key, v) := by
  by_cases hk : m.has key = true
  · simp only [FlagMap.set, hk, if_true, List.mem_map] at h
    obtain ⟨x, hx, rfl⟩ := h
    by_cases hx1 : x.1 = key
    · right; simp [hx1]
    · left; simpa [hx1] using hx
  · simp only [FlagMap.set, hk, List.mem_append, List.mem_singleton] at h
    simpa using h

theorem FlagMap.get_mem (m : FlagMap) (key : GoString) (f : Flag) (h : f ∈ m.get key) :
    ∃ fl, (key, fl) ∈ m ∧ f ∈ fl := by
  unfold FlagMap.get at h
  cases hf : m.find? (fun e => decide (e.1 = key)) with
  | none => simp [hf] at h
  | some e =>
    simp only [hf] at h
    have h1 := List.find?_some hf
    have h2 := List.mem_of_find?_eq_some hf
    simp only [decide_eq_true_eq] at h1
    exact ⟨e.2, by rw [← h1]; exact h2, h⟩

theorem bucket_nodup (cat : Flag → GoString) : ∀ (flags : List Flag) (m : FlagMap),
    (m.map Prod.fst).Nodup → ((bucket cat flags m).map Prod.fst).Nodup
  | [], m, h => h
  | flag :: rest, m, h => by
    by_cases hk : m.has flag.String = true
    · simp only [bucket, hk, if_true]
      exact bucket_nodup cat rest m h
    · simp only [bucket, hk]
      exact bucket_nodup cat rest _ (FlagMap.set_nodup m _ _ h)

theorem bucket_category (cat : Flag → GoString) : ∀ (flags : List Flag) (m : FlagMap),
    (∀ e ∈ m, ∀ f ∈ e.2, cat f = e.1) →
    ∀ e ∈ bucket cat flags m, ∀ f ∈ e.2, cat f = e.1
  | [], m, h => h
  | flag :: rest, m, h => by
    by_cases hk : m.has flag.String = true
    · simp only [bucket, hk, if_true]
      exact bucket_category cat rest m h
    · simp only [bucket, hk]
      apply bucket_category cat rest
      intro e he f hf
      rcases FlagMap.set_mem m _ _ e he with he | rfl
      · exact h e he f hf
      · rcases List.mem_append.1 hf with hf | hf
        · obtain ⟨fl, h1, h2⟩ := FlagMap.get_mem m _ f hf
          exact h _ h1 f h2
        · rw [List.mem_singleton.1 hf]

theorem categorizedFlags_nodup (d : GoString) (groups : List FlagGroup) (flags : List Flag) :
    ((categorizedFlags d groups flags).map Prod.fst).Nodup :=
  bucket_nodup _ flags [] List.nodup_nil

theorem categorizedFlags_category (d : GoString) (groups : List FlagGroup) (flags : List Flag) :
    ∀ e ∈ categorizedFlags d groups flags, ∀ f ∈ e.2, FlagCategory d f groups = e.1 :=
  bucket_category _ flags [] (by simp)

/-! ## Theorems: the sorted view of the command-help branch -/

theorem sortByCategory_perm (l : List FlagGroup) : (sortByCategory l).Perm l :=
  List.perm_insertionSort _ l

theorem sortByCategory_sorted (l : List FlagGroup) :
    (sortByCategory l).Sorted fun a b => a.Name.data ≤ b.Name.data :=
  @List.sorted_insertionSort FlagGroup (fun a b => a.Name.data ≤ b.Name.data) _
    ⟨fun a b => le_total a.Name.data b.Name.data⟩ ⟨fun _ _ _ h1 h2 => le_trans h1 h2⟩ l

theorem sortByCategory_strict (l : List FlagGroup) (hnd : (l.map FlagGroup.Name).Nodup) :
    (sortByCategory l).Sorted fun a b => a.Name.data < b.Name.data := by
  have hs := sortByCategory_sorted l
  have hp : ((sortByCategory l).map FlagGroup.Name).Nodup :=
    ((sortByCategory_perm l).map FlagGroup.Name).nodup_iff.2 hnd
  have hne : (sortByCategory l).Pairwise fun a b => a.Name ≠ b.Name := by
    rw [List.Nodup, List.pairwise_map] at hp
    exact hp
  have hboth := List.Pairwise.and hs hne
  refine List.Pairwise.imp ?_ hboth
  intro a b h
  refine lt_of_le_of_ne h.1 ?_
  intro hd
  exact h.2 (String.ext hd)

theorem sorted_unique (l1 l2 : List FlagGroup) (hp : l1.Perm l2)
    (h1 : l1.Sorted fun a b => a.Name.data < b.Name.data)
    (h2 : l2.Sorted fun a b => a.Name.data < b.Name.data) : l1 = l2 :=
  @List.eq_of_perm_of_sorted FlagGroup (fun a b => a.Name.data < b.Name.data)
    ⟨fun _ _ hab hba => absurd hba (lt_asymm hab)⟩ l1 l2 hp h1 h2

theorem iterate_names (order : MapOrder) (m : FlagMap) (hnd : (m.map Prod.fst).Nodup) :
    (((order.iterate m).map fun e => ({ Name := e.1, Flags := e.2 } : FlagGroup)).map
      FlagGroup.Name).Nodup := by
  have e : ((order.iterate m).map fun e => ({ Name := e.1, Flags := e.2 } : FlagGroup)).map
      FlagGroup.Name = (order.iterate m).map Prod.fst := by
    simp [List.map_map, Function.comp_def]
  rw [e]
  exact ((order.perm m).map Prod.fst).nodup_iff.2 hnd

theorem sortedView_strict (order : MapOrder) (m : FlagMap) (hnd : (m.map Prod.fst).Nodup) :
    (sortedView order m).Sorted fun a b => a.Name.data < b.Name.data :=
  sortByCategory_strict _ (iterate_names order m hnd)

theorem sortedView_perm (order : MapOrder) (m : FlagMap) :
    (sortedView order m).Perm (m.map fun e => ({ Name := e.1, Flags := e.2 } : FlagGroup)) :=
  (sortByCategory_perm _).trans ((order.perm m).map _)

theorem sortedView_order (o1 o2 : MapOrder) (m : FlagMap) (hnd : (m.map Prod.fst).Nodup) :
    sortedView o1 m = sortedView o2 m :=
  sorted_unique _ _ ((sortedView_perm o1 m).trans (sortedView_perm o2 m).symm)
    (sortedView_strict o1 m hnd) (sortedView_strict o2 m hnd)

theorem commandHelp_view (env : Env) (tmpl : GoString) (flags : List Flag) (s : GroupSlice) :
    (commandHelp env tmpl (.command flags) s).view
      = some (sortedView env.mapOrder (categorizedFlags env.defaultLabel s.toList flags)) := rfl

theorem HelpPrinter_command (env : Env) (data : Payload) (s : GroupSlice)
    (h : env.CommandHelpTemplate ≠ env.AppHelpTemplate) :
    HelpPrinter env env.CommandHelpTemplate data s
      = commandHelp env env.CommandHelpTemplate data s := by
  simp [HelpPrinter, h]

/-- Claim C7.  For every command flag list and registry, the command-help
branch hands a sequence of pairs to the original printer, and that sequence
is sorted ascending by category name in the order of strings.  Flags `a` and
`c` of `Networking` and `b` of `Account` give
`[(Account, [b]), (Networking, [a, c])]`. -/
theorem command_view_sorted :
    (∀ (env : Env) (tmpl : GoString) (flags : List Flag) (s : GroupSlice),
      ∃ view, (commandHelp env tmpl (.command flags) s).view = some view
        ∧ view.Sorted fun a b => a.Name ≤ b.Name)
    ∧ (HelpPrinter (exampleEnv [] .insertion) "command" (.command [flagX, flagY, flagZ])
        (.ofList [⟨"Networking", [flagX, flagZ]⟩, ⟨"Account", [flagY]⟩])).view
      = some [⟨"Account", [flagY]⟩, ⟨"Networking", [flagX, flagZ]⟩] := by
  refine ⟨?_, by decide⟩
  intro env tmpl flags s
  refine ⟨_, commandHelp_view env tmpl flags s, ?_⟩
  have hs := sortedView_strict env.mapOrder _
    (categorizedFlags_nodup env.defaultLabel s.toList flags)
  refine List.Pairwise.imp ?_ hs
  intro a b h
  exact String.le_iff_toList_le.2 (le_of_lt h)

/-- Claim C8.  For every command flag list and registry, the call that the
command-help branch makes to the original printer is the same for every order
in which the map of categories is iterated. -/
theorem command_view_deterministic (env : Env) (o1 o2 : MapOrder) (tmpl : GoString)
    (flags : List Flag) (s : GroupSlice) :
    (commandHelp { env with mapOrder := o1 } tmpl (.command flags) s).handed
      = (commandHelp { env with mapOrder := o2 } tmpl (.command flags) s).handed := by
  simp only [commandHelp]
  rw [sortedView_order o1 o2 _ (categorizedFlags_nodup env.defaultLabel s.toList flags)]

/-! ## Theorems: the category of a flag -/

theorem FlagCategory_first (d : GoString) (f : Flag) (pre post : List FlagGroup) (g : FlagGroup)
    (hpre : ∀ p ∈ pre, f.String ∉ p.Flags.map Flag.String)
    (hg : f.String ∈ g.Flags.map Flag.String) :
    FlagCategory d f (pre ++ (g :: post)) = g.Name := by
  induction pre with
  | nil => simp only [FlagCategory, List.nil_append, List.find?_cons, hg, decide_True]
  | cons p pre ih =>
    have hp : f.String ∉ p.Flags.map Flag.String := hpre p (List.mem_cons_self _ _)
    have ih1 := ih fun x hx => hpre x (List.mem_cons_of_mem _ hx)
    simp only [FlagCategory, List.cons_append, List.find?_cons, hp, decide_False] at ih1 ⊢
    exact ih1

theorem FlagCategory_default (d : GoString) (f : Flag) (groups : List FlagGroup)
    (h : ∀ g ∈ groups, f.String ∉ g.Flags.map Flag.String) :
    FlagCategory d f groups = d := by
  induction groups with
  | nil => rfl
  | cons p groups ih =>
    have hp : f.String ∉ p.Flags.map Flag.String := h p (List.mem_cons_self _ _)
    have ih1 := ih fun x hx => h x (List.mem_cons_of_mem _ hx)
    simp only [FlagCategory, List.find?_cons, hp, decide_False] at ih1 ⊢
    exact ih1

theorem mem_sortedView (order : MapOrder) (m : FlagMap) (g : FlagGroup)
    (hg : g ∈ sortedView order m) : (g.Name, g.Flags) ∈ m := by
  have h1 := (sortedView_perm order m).mem_iff.1 hg
  obtain ⟨e, he, rfl⟩ := List.mem_map.1 h1
  exact he

/-- Claim C10.  For every command flag list and registry, the command-help
branch hands a grouped view to the original printer, and each flag of a bucket
of that view sits in the bucket named by its category: the name of the first
group of the registry, in registry order, whose flags contain it by canonical
string, or the default label when no group contains it. -/
theorem command_flag_category (env : Env) (tmpl : GoString) (flags : List Flag)
    (s : GroupSlice) :
    ∃ view, (commandHelp env tmpl (.command flags) s).view = some view
      ∧ ∀ g ∈ view, ∀ f ∈ g.Flags,
          g.Name = FlagCategory env.defaultLabel f s.toList
          ∧ (∀ (pre post : List FlagGroup) (first : FlagGroup),
              s.toList = pre ++ (first :: post) →
              (∀ p ∈ pre, f.String ∉ p.Flags.map Flag.String) →
              f.String ∈ first.Flags.map Flag.String → g.Name = first.Name)
          ∧ ((∀ p ∈ s.toList, f.String ∉ p.Flags.map Flag.String) →
              g.Name = env.defaultLabel) := by
  refine ⟨_, commandHelp_view env tmpl flags s, ?_⟩
  intro g hg f hf
  have hm := mem_sortedView env.mapOrder _ g hg
  have hc : FlagCategory env.defaultLabel f s.toList = g.Name :=
    categorizedFlags_category env.defaultLabel s.toList flags _ hm f hf
  refine ⟨hc.symm, ?_, ?_⟩
  · intro pre post first hsplit hpre hfirst
    rw [← hc, hsplit]
    exact FlagCategory_first _ f pre post first hpre hfirst
  · intro hnone
    rw [← hc]
    exact FlagCategory_default _ f _ hnone

/-- Witness for `command_flag_category`: `Z` is listed by `Net` and by `Misc`
and sits in the bucket of `Net`, the first of the two; `W` is listed by no
group and sits in the bucket of the default label. -/
theorem command_flag_category_witness :
    (HelpPrinter (exampleEnv [] .insertion) "command" (.command [flagZ, flagW])
        (.ofList [⟨"Net", [flagX, flagZ]⟩, ⟨"Misc", [flagZ]⟩])).view
      = some [⟨"MISC", [flagW]⟩, ⟨"Net", [flagZ]⟩]
    ∧ ∃ view, (commandHelp (exampleEnv [] .insertion) "command" (.command [flagZ, flagW])
        (.ofList [⟨"Net", [flagX, flagZ]⟩, ⟨"Misc", [flagZ]⟩])).view = some view
      ∧ ∀ g ∈ view, ∀ f ∈ g.Flags,
          g.Name = FlagCategory "MISC" f [⟨"Net", [flagX, flagZ]⟩, ⟨"Misc", [flagZ]⟩] :=
  ⟨by decide,
    (command_flag_category (exampleEnv [] .insertion) "command" [flagZ, flagW]
      (.ofList [⟨"Net", [flagX, flagZ]⟩, ⟨"Misc", [flagZ]⟩])).imp
      fun _ h => ⟨h.1, fun g hg f hf => (h.2 g hg f hf).1⟩⟩

/-! ## Theorems: the guard of the bucketing loop -/

/-- Claim C4 fails on the code.  The guard looks the canonical string of the
flag up in a map whose keys are category names, so it does not recognise a
flag that was placed before: two flags with the same canonical string are
both placed in the bucket. -/
theorem command_duplicate_kept :
    (HelpPrinter (exampleEnv [] .insertion) "command"
        (.command [flagX, flagW, ⟨"--w", 5⟩]) (.ofList registryNetMisc)).view
      = some [⟨"MISC", [flagW, ⟨"--w", 5⟩]⟩, ⟨"Net", [flagX]⟩]
    ∧ (HelpPrinter (exampleEnv [] .insertion) "command"
        (.command [flagW, flagW]) (.ofList registryNetMisc)).view
      = some [⟨"MISC", [flagW, flagW]⟩] := by
  decide

/-- Claim C9 fails on the code.  A flag whose canonical string is the name of
a bucket that exists already is skipped by the guard: it is in no bucket of
the view. -/
theorem command_flag_dropped :
    (HelpPrinter (exampleEnv [] .insertion) "command"
        (.command [flagX, ⟨"Net", 7⟩]) (.ofList registryNetMisc)).view
      = some [⟨"Net", [flagX]⟩]
    ∧ ∀ view, (HelpPrinter (exampleEnv [] .insertion) "command"
        (.command [flagX, ⟨"Net", 7⟩]) (.ofList registryNetMisc)).view = some view →
        "Net" ∉ categorized view := by
  refine ⟨by decide, ?_⟩
  intro view hv
  have h : (HelpPrinter (exampleEnv [] .insertion) "command"
      (.command [flagX, ⟨"Net", 7⟩]) (.ofList registryNetMisc)).view
      = some [⟨"Net", [flagX]⟩] := by decide
  rw [h] at hv
  cases hv
  decide

/-! ## Theorems: the dispatcher outside the app-help template -/

theorem commandHelp_registry (env : Env) (tmpl : GoString) (data : Payload) (s : GroupSlice) :
    (commandHelp env tmpl data s).registry = s := by
  cases data <;> rfl

/-- Claim C13.  For every template identifier other than the app-help
template, every payload and every registry, the printer leaves the registry
exactly as it was; for an identifier that is neither template it hands the
identifier and the payload unchanged to the original printer and ends as the
original printer does. -/
theorem dispatcher_frame (env : Env) (tmpl : GoString) (data : Payload) (s : GroupSlice)
    (happ : tmpl ≠ env.AppHelpTemplate) :
    (HelpPrinter env tmpl data s).registry = s
    ∧ (tmpl ≠ env.CommandHelpTemplate →
        (HelpPrinter env tmpl data s).handed = some (tmpl, .plain data)
        ∧ (HelpPrinter env tmpl data s).outcome = env.originalHelpPrinter tmpl (.plain data)) := by
  by_cases hc : tmpl = env.CommandHelpTemplate
  · rw [HelpPrinter, if_neg happ, if_pos hc]
    exact ⟨commandHelp_registry env _ data s, fun h => absurd hc h⟩
  · rw [HelpPrinter, if_neg happ, if_neg hc]
    exact ⟨rfl, fun _ => ⟨rfl, rfl⟩⟩

/-- Witness for `dispatcher_frame`: the command-help template and another
template, on a registry with the hidden group. -/
theorem dispatcher_frame_witness :
    ((HelpPrinter (exampleEnv [] .insertion) "command" (.command [flagX, flagW])
        (.ofList registryHiddenMiddle)).registry = .ofList registryHiddenMiddle
      ∧ ("command" ≠ (exampleEnv [] .insertion).CommandHelpTemplate →
        (HelpPrinter (exampleEnv [] .insertion) "command" (.command [flagX, flagW])
            (.ofList registryHiddenMiddle)).handed
          = some ("command", .plain (.command [flagX, flagW]))
        ∧ (HelpPrinter (exampleEnv [] .insertion) "command" (.command [flagX, flagW])
            (.ofList registryHiddenMiddle)).outcome
          = (exampleEnv [] .insertion).originalHelpPrinter "command"
              (.plain (.command [flagX, flagW]))))
    ∧ (HelpPrinter (exampleEnv [] .insertion) "subcommand" (.other 0)
        (.ofList registryHiddenMiddle)).registry = .ofList registryHiddenMiddle
    ∧ (HelpPrinter (exampleEnv [] .insertion) "subcommand" (.other 0)
        (.ofList registryHiddenMiddle)).handed = some ("subcommand", .plain (.other 0)) :=
  ⟨dispatcher_frame (exampleEnv [] .insertion) "command" (.command [flagX, flagW])
      (.ofList registryHiddenMiddle) (by decide),
    (dispatcher_frame (exampleEnv [] .insertion) "subcommand" (.other 0)
      (.ofList registryHiddenMiddle) (by decide)).1,
    ((dispatcher_frame (exampleEnv [] .insertion) "subcommand" (.other 0)
      (.ofList registryHiddenMiddle) (by decide)).2 (by decide)).1⟩

/-! ## Theorems: two calls in a row -/

/-- Claim C15.  There are a registry and a registered flag list for which two
consecutive app-help calls with the same inputs hand different views to the
original printer.  The flag of the hidden group is registered, not deprecated
and in no other group: the first call shows it in no group, and the second
call, the hidden group being gone from the registry, shows it appended to the
last group. -/
theorem second_call_differs :
    ∃ (R : List FlagGroup) (flags : List Flag) (view1 view2 : List FlagGroup),
      (HelpPrinter (exampleEnv [] .insertion) "app" (.app flags) (.ofList R)).view = some view1
      ∧ (HelpPrinter (exampleEnv [] .insertion) "app" (.app flags)
          (HelpPrinter (exampleEnv [] .insertion) "app" (.app flags) (.ofList R)).registry).view
        = some view2
      ∧ view1 ≠ view2
      ∧ R = registryHiddenMiddle
      ∧ flagH ∈ flags
      ∧ flagH.String ∉ categorized view1
      ∧ view1 = [⟨"Net", [flagX, flagY]⟩, ⟨"Misc", [flagZ]⟩]
      ∧ view2 = [⟨"Net", [flagX, flagY]⟩, ⟨"Misc", [flagZ, flagH]⟩] :=
  ⟨registryHiddenMiddle, [flagX, flagY, flagH, flagZ],
    [⟨"Net", [flagX, flagY]⟩, ⟨"Misc", [flagZ]⟩],
    [⟨"Net", [flagX, flagY]⟩, ⟨"Misc", [flagZ, flagH]⟩],
    by decide, by decide, by decide, rfl, by decide, by decide, rfl, rfl⟩

/-! ## Theorems: the bounds of the app-help branch -/

theorem slice_of_nonempty (s : GroupSlice) (hwf : s.wf) (hne : s.toList ≠ []) :
    ∃ front L junk, s.arr = front ++ (L :: junk) ∧ s.len = front.length + 1 := by
  rcases slice_cases s hwf with h0 | h
  · exact absurd (toList_zero s h0) hne
  · exact h

theorem slice_eq (s : GroupSlice) (front junk : List FlagGroup) (L : FlagGroup)
    (hs : s.arr = front ++ (L :: junk)) (hl : s.len = front.length + 1) :
    s = ⟨front ++ (L :: junk), front.length + 1⟩ := by
  cases s; simp only at hs hl; subst hs; subst hl; rfl

/-- Claim C16.  For every non-empty registry in which at most one group bears
the hidden name and the last group does not, and for every registered flag
list and deprecated list, no step of the app-help branch indexes or slices out
of range: when there are uncategorized flags the staging, the exclusion loop
and the deferred truncation all succeed, otherwise the exclusion loop does,
and the call ends as the original printer ends.  With an empty registry and
at least one uncategorized flag the staging indexes out of range. -/
theorem app_help_in_bounds :
    (∀ (env : Env) (flags : List Flag) (s : GroupSlice), s.wf → s.toList ≠ [] →
      hiddenCount s.toList ≤ 1 → fallbackShown s.toList →
      (0 < (uncategorized s.toList env.DeprecatedFlags flags).length →
        ∃ s1 miscs s2 s3,
          stage s (uncategorized s.toList env.DeprecatedFlags flags) = .ok (s1, miscs)
          ∧ exclude s1 = (s2, none) ∧ unstage s2 miscs = .ok s3
          ∧ (HelpPrinter env env.AppHelpTemplate (.app flags) s).registry = s3)
      ∧ ((uncategorized s.toList env.DeprecatedFlags flags).length = 0 →
        ∃ s2, exclude s = (s2, none)
          ∧ (HelpPrinter env env.AppHelpTemplate (.app flags) s).registry = s2)
      ∧ ∃ arg, (HelpPrinter env env.AppHelpTemplate (.app flags) s).handed
            = some (env.AppHelpTemplate, arg)
          ∧ (HelpPrinter env env.AppHelpTemplate (.app flags) s).outcome
            = env.originalHelpPrinter env.AppHelpTemplate arg)
    ∧ (∀ (env : Env) (flags : List Flag) (s : GroupSlice), s.len = 0 →
      0 < (uncategorized s.toList env.DeprecatedFlags flags).length →
      stage s (uncategorized s.toList env.DeprecatedFlags flags) = .error .indexOutOfRange
      ∧ (HelpPrinter env env.AppHelpTemplate (.app flags) s).handed = none
      ∧ (HelpPrinter env env.AppHelpTemplate (.app flags) s).outcome
          = .error .indexOutOfRange) := by
  constructor
  · intro env flags s hwf hne _ hlast
    obtain ⟨front, L, junk, hs, hl⟩ := slice_of_nonempty s hwf hne
    have ht := toList_split s front junk L hs hl
    have hL : L.shown := fallbackShown_split front L (by rw [← ht]; exact hlast)
    obtain ⟨junk1, h⟩ := appHelp_shape env env.AppHelpTemplate flags s front junk L hs hl hL
    rw [HelpPrinter_app, h, ht]
    refine ⟨?_, ?_, ⟨_, rfl, rfl⟩⟩
    · intro _
      obtain ⟨junk2, hx⟩ := exclude_split front junk
        (L.extend (uncategorized (front ++ [L]) env.DeprecatedFlags flags))
        (extend_shown L _ hL)
      refine ⟨_, _, _, _, stage_split s front junk L _ hs hl, hx, unstage_split _ _ L _, ?_⟩
      have h2 := h
      have hu : (uncategorized (front ++ [L]) env.DeprecatedFlags flags).length > 0 := by
        assumption
      simp only [appHelp, ht, hu, if_true, stage_split s front junk L _ hs hl,
        excludeAndRender, hx, runDeferred, unstage_split] at h2
      exact (congrArg Result.registry h2).symm
    · intro hz
      obtain ⟨junk2, hx⟩ := exclude_split front junk L hL
      refine ⟨_, (slice_eq s front junk L hs hl) ▸ hx, ?_⟩
      have h2 := h
      have hu : ¬ (uncategorized (front ++ [L]) env.DeprecatedFlags flags).length > 0 := by
        omega
      simp only [appHelp, ht, hu, if_false] at h2
      rw [slice_eq s front junk L hs hl] at h2
      simp only [excludeAndRender, hx, runDeferred] at h2
      exact (congrArg Result.registry h2).symm
  · intro env flags s h0 hu
    have hu1 : (uncategorized s.toList env.DeprecatedFlags flags).length > 0 := hu
    refine ⟨by simp [stage, h0], ?_, ?_⟩
    · simp [HelpPrinter_app, appHelp, hu1, stage, h0]
    · simp [HelpPrinter_app, appHelp, hu1, stage, h0]

/-- Witness for `app_help_in_bounds`: the hidden group between two others and
a flag in no group; and the empty registry with one registered flag. -/
theorem app_help_in_bounds_witness :
    (∃ arg, (HelpPrinter (exampleEnv [] .insertion) "app" (.app [flagX, flagW])
          (.ofList registryHiddenMiddle)).handed = some ("app", arg)
        ∧ (HelpPrinter (exampleEnv [] .insertion) "app" (.app [flagX, flagW])
          (.ofList registryHiddenMiddle)).outcome
          = (exampleEnv [] .insertion).originalHelpPrinter "app" arg)
    ∧ (HelpPrinter (exampleEnv [] .insertion) "app" (.app [flagW]) (.ofList [])).outcome
        = .error .indexOutOfRange :=
  ⟨(app_help_in_bounds.1 (exampleEnv [] .insertion) [flagX, flagW]
      (.ofList registryHiddenMiddle) (Nat.le_refl 3) (by decide) (by decide) (by
        intro g hg
        simp [GroupSlice.toList, GroupSlice.ofList, registryHiddenMiddle] at hg
        subst hg
        decide)).2.2,
    (app_help_in_bounds.2 (exampleEnv [] .insertion) [flagW] (.ofList []) rfl
      (by decide)).2.2⟩

/-! ## Theorems: the exclusion is not reverted -/

theorem nodup_hidden (pre post : List FlagGroup) (h : FlagGroup)
    (hnd : ((pre ++ (h :: post)).map FlagGroup.Name).Nodup)
    (hh : h.Name = quorumAccountFlagGroup) :
    (∀ g ∈ pre, g.shown) ∧ (∀ g ∈ post, g.shown) := by
  rw [List.map_append, List.map_cons, List.nodup_append] at hnd
  obtain ⟨_, h2, h3⟩ := hnd
  constructor
  · intro g hg hgn
    exact h3 (List.mem_map_of_mem FlagGroup.Name hg) (by
      rw [hgn, ← hh]
      exact List.mem_cons_self _ _)
  · intro g hg hgn
    have hnot := (List.nodup_cons.1 h2).1
    apply hnot
    rw [hh, ← hgn]
    exact List.mem_map_of_mem FlagGroup.Name hg

theorem rangeRemove_one (pre post : List FlagGroup) (h : FlagGroup)
    (hpre : ∀ g ∈ pre, g.shown) (hpost : ∀ g ∈ post, g.shown)
    (hh : h.Name = quorumAccountFlagGroup) :
    rangeRemove (pre ++ (h :: post)) = pre ++ post := by
  have hc : hiddenCount (pre ++ (h :: post)) ≤ 1 := by
    rw [hiddenCount_append, hiddenCount_cons, (hiddenCount_zero pre).2 hpre,
      (hiddenCount_zero post).2 hpost]
    simp [hh]
  rw [rangeRemove_eq_filter _ hc, List.filter_append, List.filter_cons_of_neg (by simp [hh]),
    filter_of_shown pre hpre, filter_of_shown post hpost]

/-- Claim C12.  For every registry with pairwise distinct group names that
contains a hidden group which is not the last group, the registry after an
app-help call is the registry before the call with the hidden group removed,
all other groups unchanged and in the same order; the removal is not
reverted, and a further app-help call leaves that registry unchanged. -/
theorem exclusion_persists (env env2 : Env) (flags flags2 : List Flag) (s : GroupSlice)
    (pre post : List FlagGroup) (h : FlagGroup) (hwf : s.wf)
    (hnd : (s.toList.map FlagGroup.Name).Nodup)
    (ht : s.toList = pre ++ (h :: post)) (hh : h.Name = quorumAccountFlagGroup)
    (hpost : post ≠ []) :
    (HelpPrinter env env.AppHelpTemplate (.app flags) s).registry.toList = pre ++ post
    ∧ (HelpPrinter env env.AppHelpTemplate (.app flags) s).registry.toList ≠ s.toList
    ∧ (HelpPrinter env2 env2.AppHelpTemplate (.app flags2)
        (HelpPrinter env env.AppHelpTemplate (.app flags) s).registry).registry.toList
      = pre ++ post := by
  obtain ⟨post1, L, rfl⟩ : ∃ post1 L, post = post1 ++ [L] :=
    ⟨post.dropLast, post.getLast hpost, (List.dropLast_append_getLast hpost).symm⟩
  rw [ht] at hnd
  obtain ⟨hpre, hpo⟩ := nodup_hidden pre (post1 ++ [L]) h hnd hh
  have hpost1 : ∀ g ∈ post1, g.shown := fun g hg => hpo g (List.mem_append_left _ hg)
  have hL : L.shown := hpo L (by simp)
  have ht1 : s.toList = (pre ++ (h :: post1)) ++ [L] := by rw [ht]; simp
  obtain ⟨junk, hs, hl⟩ := slice_of_toList s hwf _ L ht1
  obtain ⟨junk1, h1⟩ := appHelp_shape env env.AppHelpTemplate flags s _ junk L hs hl hL
  rw [rangeRemove_one pre post1 h hpre hpost1 hh] at h1
  have hshown : ∀ g ∈ pre ++ post1, g.shown := by
    intro g hg
    rcases List.mem_append.1 hg with hg | hg
    · exact hpre g hg
    · exact hpost1 g hg
  obtain ⟨junk2, h2⟩ := appHelp_shape env2 env2.AppHelpTemplate flags2
    ⟨(pre ++ post1) ++ (L :: junk1), (pre ++ post1).length + 1⟩ (pre ++ post1) junk1 L rfl rfl hL
  rw [rangeRemove_of_shown _ hshown] at h2
  rw [HelpPrinter_app, h1, HelpPrinter_app, h2]
  have e1 := toList_split ⟨(pre ++ post1) ++ (L :: junk1), (pre ++ post1).length + 1⟩
    (pre ++ post1) junk1 L rfl rfl
  have e2 := toList_split ⟨(pre ++ post1) ++ (L :: junk2), (pre ++ post1).length + 1⟩
    (pre ++ post1) junk2 L rfl rfl
  simp only [e1, e2, ht]
  refine ⟨by simp, ?_, by simp⟩
  intro hEq
  have hlen := congrArg List.length hEq
  simp at hlen

/-- Witness for `exclusion_persists`: the hidden group between `Net` and
`Misc`; after the first call and after the second the registry is `Net`,
`Misc`. -/
theorem exclusion_persists_witness :
    (HelpPrinter (exampleEnv [] .insertion) "app" (.app [flagX, flagW])
        (.ofList registryHiddenMiddle)).registry.toList
      = [⟨"Net", [flagX, flagY]⟩] ++ [⟨"Misc", [flagZ]⟩]
    ∧ (HelpPrinter (exampleEnv [] .insertion) "app" (.app [flagX, flagW])
        (.ofList registryHiddenMiddle)).registry.toList
      ≠ (GroupSlice.ofList registryHiddenMiddle).toList
    ∧ (HelpPrinter (failingEnv [] .insertion) "app" (.app [flagH])
        (HelpPrinter (exampleEnv [] .insertion) "app" (.app [flagX, flagW])
          (.ofList registryHiddenMiddle)).registry).registry.toList
      = [⟨"Net", [flagX, flagY]⟩] ++ [⟨"Misc", [flagZ]⟩] :=
  exclusion_persists (exampleEnv [] .insertion) (failingEnv [] .insertion) [flagX, flagW] [flagH]
    (.ofList registryHiddenMiddle) [⟨"Net", [flagX, flagY]⟩] [⟨"Misc", [flagZ]⟩]
    ⟨quorumAccountFlagGroup, [flagH]⟩ (Nat.le_refl 3) (by decide) (by decide) rfl (by decide)

/-! ## Theorems: the order of the flags in a bucket -/

theorem FlagMap.get_cases (m : FlagMap) (key : GoString) :
    m.get key = [] ∨ (key, m.get key) ∈ m := by
  unfold FlagMap.get
  cases hf : m.find? (fun e => decide (e.1 = key)) with
  | none => exact Or.inl rfl
  | some e =>
    right
    have h1 := List.find?_some hf
    have h2 := List.mem_of_find?_eq_some hf
    simp only [decide_eq_true_eq] at h1
    simp only
    rw [← h1]
    exact h2

theorem bucket_sublist (cat : Flag → GoString) : ∀ (flags : List Flag) (m : FlagMap)
    (done : List Flag), (∀ e ∈ m, e.2.Sublist done) →
    ∀ e ∈ bucket cat flags m, e.2.Sublist (done ++ flags)
  | [], m, done, h => by simpa [bucket] using h
  | flag :: rest, m, done, h => by
    have e1 : done ++ (flag :: rest) = (done ++ [flag]) ++ rest := by simp
    rw [e1]
    by_cases hk : m.has flag.String = true
    · simp only [bucket, hk, if_true]
      exact bucket_sublist cat rest m (done ++ [flag])
        fun e he => (h e he).trans (List.sublist_append_left done [flag])
    · simp only [bucket, hk]
      apply bucket_sublist cat rest _ (done ++ [flag])
      intro e he
      rcases FlagMap.set_mem m _ _ e he with he | rfl
      · exact (h e he).trans (List.sublist_append_left done [flag])
      · rcases FlagMap.get_cases m (cat flag) with hg | hg
        · simp only [hg, List.nil_append]
          exact List.sublist_append_right done [flag]
        · exact List.Sublist.append (h _ hg) (List.Sublist.refl [flag])

theorem sortedView_names (order : MapOrder) (m : FlagMap) (hnd : (m.map Prod.fst).Nodup) :
    ((sortedView order m).map FlagGroup.Name).Nodup :=
  ((sortByCategory_perm _).map FlagGroup.Name).nodup_iff.2 (iterate_names order m hnd)

/-- Claim C14.  For every command flag list and registry, the flags of each
bucket of the view of the command-help branch appear in the relative order
they have in the command flag list (each bucket is a subsequence of the
list), and no two pairs of the view have the same category name. -/
theorem command_bucket_order (env : Env) (tmpl : GoString) (flags : List Flag)
    (s : GroupSlice) :
    ∃ view, (commandHelp env tmpl (.command flags) s).view = some view
      ∧ (∀ g ∈ view, g.Flags.Sublist flags)
      ∧ (view.map FlagGroup.Name).Nodup := by
  refine ⟨_, commandHelp_view env tmpl flags s, ?_, ?_⟩
  · intro g hg
    have hm := mem_sortedView env.mapOrder _ g hg
    have := bucket_sublist (fun flag => FlagCategory env.defaultLabel flag s.toList) flags [] []
      (by simp) _ hm
    simpa using this
  · exact sortedView_names env.mapOrder _ (categorizedFlags_nodup env.defaultLabel s.toList flags)

/-! ## Theorems: what the exclusion loop removes -/

theorem wf_split (s : GroupSlice) (hwf : s.wf) :
    s.arr = s.toList ++ s.arr.drop s.len ∧ s.toList.length = s.len := by
  have h : s.len ≤ s.arr.length := hwf
  refine ⟨(List.take_append_drop s.len s.arr).symm, ?_⟩
  simp only [GroupSlice.toList, List.length_take]
  omega

theorem removeAt_erase (s : GroupSlice) (i : Nat) (g : FlagGroup) (hwf : s.wf)
    (hi : i + 1 ≤ s.len) (hget : s.arr[i]? = some g) :
    s.toList = s.arr.take i ++ (g :: (s.arr.drop (i + 1)).take (s.len - (i + 1))) := by
  have h : s.len ≤ s.arr.length := hwf
  have hlt : i < s.arr.length := by omega
  have hg : s.arr[i] = g := by
    have := List.getElem?_eq_getElem hlt
    rw [this] at hget
    exact Option.some.inj hget
  have e : s.len = i + (s.len - (i + 1) + 1) := by omega
  have hd : s.arr.drop i = g :: s.arr.drop (i + 1) := by
    rw [← hg]
    exact List.drop_eq_getElem_cons hlt
  simp only [GroupSlice.toList]
  conv_lhs => rw [e, List.take_add, hd, List.take_succ_cons]

theorem excludeLoop_sublist (k : Nat) : ∀ (i : Nat) (s : GroupSlice), s.wf →
    (excludeLoop k i s).1.toList.Sublist s.toList
    ∧ (excludeLoop k i s).1.toList.filter (fun g => !decide (g.Name = quorumAccountFlagGroup))
      = s.toList.filter (fun g => !decide (g.Name = quorumAccountFlagGroup)) := by
  induction k with
  | zero => intro i s _; exact ⟨List.Sublist.refl _, rfl⟩
  | succ k ih =>
    intro i s hwf
    rw [excludeLoop]
    cases hget : s.arr[i]? with
    | none => exact ⟨List.Sublist.refl _, rfl⟩
    | some group =>
      simp only
      by_cases hn : group.Name = quorumAccountFlagGroup
      · by_cases hi : i + 1 ≤ s.len
        · simp only [hn, hi, if_true]
          obtain ⟨h1, h2⟩ := ih (i + 1) (removeAt s i) (removeAt_wf s i hwf hi)
          have e1 := removeAt_toList s i hwf hi
          have e2 := removeAt_erase s i group hwf hi hget
          constructor
          · refine h1.trans ?_
            rw [e1, e2]
            exact List.Sublist.append (List.Sublist.refl _) (List.sublist_cons_self _ _)
          · rw [h2, e1, e2, List.filter_append, List.filter_append,
              List.filter_cons_of_neg (by simp [hn])]
        · simp [hn, hi]
      · simp only [hn, if_false]
        exact ih (i + 1) s hwf

theorem first_hidden : ∀ l : List FlagGroup, hiddenCount l ≠ 0 →
    ∃ pre h post, l = pre ++ (h :: post) ∧ (∀ g ∈ pre, g.shown)
      ∧ h.Name = quorumAccountFlagGroup
  | [], hc => absurd rfl hc
  | g :: l, hc => by
    by_cases hg : g.Name = quorumAccountFlagGroup
    · exact ⟨[], g, l, rfl, by simp, hg⟩
    · have hl : hiddenCount l ≠ 0 := by
        rw [hiddenCount_cons] at hc
        simpa [hg] using hc
      obtain ⟨pre, h, post, e, hp, hh⟩ := first_hidden l hl
      refine ⟨g :: pre, h, post, by rw [e]; rfl, ?_, hh⟩
      intro x hx
      rcases List.mem_cons.1 hx with rfl | hx
      · exact hg
      · exact hp x hx

theorem exclude_first (s : GroupSlice) (hwf : s.wf) (pre post : List FlagGroup) (h : FlagGroup)
    (ht : s.toList = pre ++ (h :: post)) (hpre : ∀ g ∈ pre, g.shown)
    (hh : h.Name = quorumAccountFlagGroup) :
    (exclude s).1.toList.Sublist (pre ++ post) := by
  obtain ⟨harr, hlen⟩ := wf_split s hwf
  rw [ht] at harr hlen
  have hlen1 : s.len = pre.length + (1 + post.length) := by
    rw [← hlen]; simp; omega
  have harr1 : s.arr = pre ++ (h :: (post ++ s.arr.drop s.len)) :=
    harr.trans (by simp)
  have hget : s.arr[pre.length]? = some h := by
    rw [harr1]
    exact getElem?_at pre _ h
  have hprefix := excludeLoop_prefix pre.length (1 + post.length) 0 s (by
    intro m _ h2
    obtain ⟨g, hg, hm⟩ := getElem?_mid [] pre (h :: (post ++ s.arr.drop s.len)) m (by simp)
      (by simpa using h2)
    rw [harr1]
    exact ⟨g, by simpa using hg, hpre g hm⟩)
  have hi : pre.length + 1 ≤ s.len := by omega
  have hrm : (removeAt s pre.length).toList = pre ++ post := by
    have e2 := removeAt_erase s pre.length h hwf hi hget
    rw [removeAt_toList s pre.length hwf hi]
    rw [ht] at e2
    have e3 : (s.arr.take pre.length).length = pre.length := by
      rw [List.length_take]
      have : s.len ≤ s.arr.length := hwf
      omega
    obtain ⟨e4, e5⟩ := List.append_inj e2 e3.symm
    rw [← e4]
    simp only [List.cons.injEq, true_and] at e5
    rw [← e5]
  rw [exclude, hlen1, hprefix, Nat.zero_add, Nat.add_comm 1 post.length, excludeLoop]
  simp only [hget, hh, hi, if_true]
  have := (excludeLoop_sublist post.length (pre.length + 1) (removeAt s pre.length)
    (removeAt_wf s pre.length hwf hi)).1
  rw [hrm] at this
  exact this

theorem exclude_no_hidden (s : GroupSlice) (hwf : s.wf) (hs : ∀ g ∈ s.toList, g.shown) :
    exclude s = (s, none) := by
  obtain ⟨harr, hlen⟩ := wf_split s hwf
  apply excludeLoop_shown
  intro j _ h2
  obtain ⟨g, hg, hm⟩ := getElem?_mid [] s.toList (s.arr.drop s.len) j (by simp)
    (by simp only [List.length_nil, hlen]; omega)
  rw [harr]
  exact ⟨g, by simpa using hg, hs g hm⟩

theorem exclude_last_shown (s : GroupSlice) (hwf : s.wf) (front : List FlagGroup) (L : FlagGroup)
    (ht : s.toList = front ++ [L]) (hL : L.shown) :
    (exclude s).2 = none ∧ (exclude s).1.toList = rangeRemove front ++ [L] := by
  obtain ⟨junk, hs, hl⟩ := slice_of_toList s hwf front L ht
  obtain ⟨junk1, hx⟩ := exclude_split front junk L hL
  rw [slice_eq s front junk L hs hl, hx]
  exact ⟨rfl, toList_split _ (rangeRemove front) junk1 L rfl rfl⟩

theorem exclude_at_most_one (s : GroupSlice) (hwf : s.wf) (hone : hiddenCount s.toList ≤ 1) :
    (exclude s).2 = none
    ∧ (exclude s).1.toList
      = s.toList.filter fun g => !decide (g.Name = quorumAccountFlagGroup) := by
  by_cases hz : hiddenCount s.toList = 0
  · have hs := (hiddenCount_zero _).1 hz
    rw [exclude_no_hidden s hwf hs, filter_of_shown _ hs]
    exact ⟨rfl, rfl⟩
  · obtain ⟨pre, h, post, ht, hpre, hh⟩ := first_hidden s.toList hz
    have hpost : ∀ g ∈ post, g.shown := by
      apply (hiddenCount_zero post).1
      rw [ht, hiddenCount_append, hiddenCount_cons] at hone
      simp only [hh, if_true] at hone
      omega
    rcases List.eq_nil_or_concat post with hnil | ⟨post1, L, hcat⟩
    · subst hnil
      obtain ⟨junk, hs, hl⟩ := slice_of_toList s hwf pre h ht
      rw [slice_eq s pre junk h hs hl, exclude_hidden_last pre junk h hpre hh]
      have e1 : (⟨pre ++ (h :: junk), pre.length⟩ : GroupSlice).toList = pre := by
        simp [GroupSlice.toList]
      have e2 : (⟨pre ++ (h :: junk), pre.length + 1⟩ : GroupSlice).toList = pre ++ [h] :=
        toList_split _ pre junk h rfl rfl
      refine ⟨rfl, ?_⟩
      show (⟨pre ++ (h :: junk), pre.length⟩ : GroupSlice).toList
        = List.filter _ (GroupSlice.toList ⟨pre ++ (h :: junk), pre.length + 1⟩)
      rw [e1, e2, List.filter_append, filter_of_shown pre hpre,
        List.filter_cons_of_neg (by simp [hh])]
      simp
    · rw [List.concat_eq_append] at hcat
      subst hcat
      have hpost1 : ∀ g ∈ post1, g.shown := fun g hg => hpost g (List.mem_append_left _ hg)
      have hL : L.shown := hpost L (by simp)
      have ht1 : s.toList = (pre ++ (h :: post1)) ++ [L] := by rw [ht]; simp
      obtain ⟨h1, h2⟩ := exclude_last_shown s hwf _ L ht1 hL
      refine ⟨h1, ?_⟩
      rw [h2, rangeRemove_one pre post1 h hpre hpost1 hh, ht, List.filter_append,
        List.filter_cons_of_neg (by simp [hh]), filter_of_shown pre hpre,
        filter_of_shown _ hpost]
      simp

/-- Claim C11, amended.  For every registry, the exclusion loop of the app-help
branch leaves a registry whose groups are groups of the registry before, in
the same relative order, and in which every group with another name than the
hidden one remains; the first group with the hidden name is removed; a
registry with no such group is left unchanged.  When at most one group bears
the hidden name, exactly that group is removed and nothing else.  When the
last group does not bear the hidden name, a later group with the hidden name
stays only if it directly follows a removed group, as `rangeRemove` says. -/
theorem exclusion_step (s : GroupSlice) (hwf : s.wf) :
    (exclude s).1.toList.Sublist s.toList
    ∧ (exclude s).1.toList.filter (fun g => !decide (g.Name = quorumAccountFlagGroup))
      = s.toList.filter (fun g => !decide (g.Name = quorumAccountFlagGroup))
    ∧ (∀ pre h post, s.toList = pre ++ (h :: post) →
        (∀ g ∈ pre, g.Name ≠ quorumAccountFlagGroup) → h.Name = quorumAccountFlagGroup →
        (exclude s).1.toList.Sublist (pre ++ post))
    ∧ (hiddenCount s.toList = 0 → exclude s = (s, none))
    ∧ (hiddenCount s.toList ≤ 1 →
        (exclude s).2 = none
        ∧ (exclude s).1.toList
          = s.toList.filter fun g => !decide (g.Name = quorumAccountFlagGroup))
    ∧ (∀ front L, s.toList = front ++ [L] → L.Name ≠ quorumAccountFlagGroup →
        (exclude s).2 = none ∧ (exclude s).1.toList = rangeRemove front ++ [L]) := by
  have h12 := excludeLoop_sublist s.len 0 s hwf
  refine ⟨h12.1, h12.2, ?_, ?_, exclude_at_most_one s hwf, ?_⟩
  · intro pre h post ht hpre hh
    exact exclude_first s hwf pre post h ht hpre hh
  · intro hz
    exact exclude_no_hidden s hwf ((hiddenCount_zero _).1 hz)
  · intro front L ht hL
    exact exclude_last_shown s hwf front L ht hL

/-- Witness for `exclusion_step`: the hidden group between `Net` and `Misc` is
removed and the two others stay. -/
theorem exclusion_step_witness :
    (exclude (.ofList registryHiddenMiddle)).2 = none
    ∧ (exclude (.ofList registryHiddenMiddle)).1.toList
      = [⟨"Net", [flagX, flagY]⟩, ⟨"Misc", [flagZ]⟩] :=
  ⟨((exclusion_step (.ofList registryHiddenMiddle) (Nat.le_refl 3)).2.2.2.2.1 (by decide)).1,
    (((exclusion_step (.ofList registryHiddenMiddle) (Nat.le_refl 3)).2.2.2.2.1
      (by decide)).2).trans (by decide)⟩

/-- Claim C11 as stated fails.  The loop does not stop at the first group with
the hidden name: of two such groups with another group between them both are
removed, and the same registry is what an app-help call leaves. -/
theorem exclusion_removes_later_group :
    (exclude (.ofList registryHiddenApart)).1.toList
      = [⟨"Net", [flagY]⟩, ⟨"Misc", [flagZ]⟩]
    ∧ (exclude (.ofList registryHiddenApart)).2 = none
    ∧ (HelpPrinter (exampleEnv [] .insertion) "app" (.app [flagW])
        (.ofList registryHiddenApart)).registry.toList
      = [⟨"Net", [flagY]⟩, ⟨"Misc", [flagZ]⟩] := by
  decide

/-! ## Theorems: the occurrences of a flag in any view that is handed over -/

theorem excludeAndRender_view (env : Env) (tmpl : GoString) (data : Payload)
    (s1 : GroupSlice) (miscs : Option Nat) (view : List FlagGroup)
    (hv : (excludeAndRender env tmpl data s1 miscs).view = some view) :
    (exclude s1).2 = none ∧ view = (exclude s1).1.toList := by
  unfold excludeAndRender at hv
  rcases hx : exclude s1 with ⟨s2, p⟩
  rw [hx] at hv
  cases p with
  | some p => simp [Result.view] at hv
  | none =>
    simp only [Result.view, Option.some.injEq] at hv
    exact ⟨rfl, hv.symm⟩

theorem excludeAndRender_occurrences (env : Env) (tmpl : GoString) (data : Payload)
    (s1 : GroupSlice) (miscs : Option Nat) (hwf : s1.wf) (view : List FlagGroup)
    (hv : (excludeAndRender env tmpl data s1 miscs).view = some view) (str : GoString)
    (hH : ∀ g ∈ s1.toList, g.Name = quorumAccountFlagGroup → str ∉ g.Flags.map Flag.String) :
    occurrences str view = occurrences str s1.toList := by
  obtain ⟨_, rfl⟩ := excludeAndRender_view env tmpl data s1 miscs view hv
  obtain ⟨hsub, hfil⟩ := excludeLoop_sublist s1.len 0 s1 hwf
  rw [← exclude] at hsub hfil
  have hH2 : ∀ g ∈ (exclude s1).1.toList, g.Name = quorumAccountFlagGroup →
      str ∉ g.Flags.map Flag.String := fun g hg => hH g (hsub.subset hg)
  rw [← occurrences_filter str _ hH2, hfil, occurrences_filter str _ hH]

/-- The number of occurrences of a canonical string in a view handed over by
the app-help branch: those in the registry and those in the residue, when no
group with the hidden name has the string and the residue is not staged on
such a group. -/
theorem view_occurrences (env : Env) (tmpl : GoString) (flags : List Flag) (s : GroupSlice)
    (hwf : s.wf) (view : List FlagGroup)
    (hv : (appHelp env tmpl (.app flags) s).view = some view) (str : GoString)
    (hH : ∀ g ∈ s.toList, g.Name = quorumAccountFlagGroup → str ∉ g.Flags.map Flag.String)
    (hL : str ∈ (uncategorized s.toList env.DeprecatedFlags flags).map Flag.String →
      fallbackShown s.toList) :
    occurrences str view = occurrences str s.toList
      + ((uncategorized s.toList env.DeprecatedFlags flags).map Flag.String).count str := by
  by_cases hu : (uncategorized s.toList env.DeprecatedFlags flags).length > 0
  · rcases slice_cases s hwf with h0 | ⟨front, L, junk, hs, hl⟩
    · simp [appHelp, hu, stage, h0, Result.view] at hv
    · have ht := toList_split s front junk L hs hl
      simp only [appHelp, hu, if_true, stage_split s front junk L _ hs hl] at hv
      have hwf1 : (⟨front ++ (L.extend (uncategorized s.toList env.DeprecatedFlags flags)
          :: junk), front.length + 1⟩ : GroupSlice).wf := by
        simp only [GroupSlice.wf, List.length_append, List.length_cons]
        omega
      have ht1 := toList_split ⟨front ++ (L.extend (uncategorized s.toList
        env.DeprecatedFlags flags) :: junk), front.length + 1⟩ front junk _ rfl rfl
      have hocc := excludeAndRender_occurrences env tmpl (.app flags) _ _ hwf1 view hv str (by
        rw [ht1]
        intro g hg hgn
        rcases List.mem_append.1 hg with hg | hg
        · exact hH g (by rw [ht]; exact List.mem_append_left _ hg) hgn
        · rw [List.mem_singleton.1 hg] at hgn ⊢
          have hLn : L.Name = quorumAccountFlagGroup := hgn
          have h1 : str ∉ L.Flags.map Flag.String := hH L (by rw [ht]; simp) hLn
          have h2 : str ∉ (uncategorized s.toList env.DeprecatedFlags flags).map Flag.String := by
            intro hin
            exact hL hin L (by rw [ht]; simp) hLn
          simp only [FlagGroup.extend, List.map_append, List.mem_append]
          exact fun h => h.elim h1 h2)
      rw [hocc, ht1, occurrences_append, occurrences_extend, ← Nat.add_assoc,
        ← occurrences_append, ← ht]
  · have hnil : uncategorized s.toList env.DeprecatedFlags flags = [] := by
      cases hc : uncategorized s.toList env.DeprecatedFlags flags with
      | nil => rfl
      | cons a t => rw [hc] at hu; simp at hu
    simp only [appHelp, hu, if_false] at hv
    rw [excludeAndRender_occurrences env tmpl (.app flags) s none hwf view hv str hH, hnil]
    simp

theorem view_exists (env : Env) (tmpl : GoString) (flags : List Flag) (s : GroupSlice)
    (hwf : s.wf) (hne : s.toList ≠ [])
    (h : fallbackShown s.toList ∨ hiddenCount s.toList ≤ 1) :
    ∃ view, (appHelp env tmpl (.app flags) s).view = some view := by
  obtain ⟨front, L, junk, hs, hl⟩ := slice_of_nonempty s hwf hne
  have ht := toList_split s front junk L hs hl
  by_cases hL : L.Name = quorumAccountFlagGroup
  · rcases h with h | h
    · exact absurd hL (h L (by rw [ht]; simp))
    · rw [ht, hiddenCount_append, hiddenCount_cons] at h
      simp only [hL, if_true, hiddenCount, List.countP_nil, Nat.zero_add] at h
      have hz : hiddenCount front = 0 := by
        simp only [hiddenCount]
        omega
      exact ⟨front, appHelp_view_hidden_last env tmpl flags s front junk L hs hl
        ((hiddenCount_zero front).1 hz) hL⟩
  · obtain ⟨junk1, h1⟩ := appHelp_shape env tmpl flags s front junk L hs hl hL
    exact ⟨_, by rw [h1, view_of_shape]⟩

/-- Claim C2, amended.  For every registry, registered flag list and
deprecated list, take a canonical string that is not deprecated, that no
group with the hidden name lists, and that occurs at most once among the
flags of the registry; if no group lists it, let it occur once in the
registered flag list and let the last group of the registry not bear the
hidden name.  Then every view that the app-help branch hands to the original
printer contains the string exactly once, in exactly one group; and a view is
handed over when the registry is not empty and its last group does not bear
the hidden name or at most one group bears it. -/
theorem registered_flag_once (env : Env) (flags : List Flag) (s : GroupSlice) (hwf : s.wf)
    (str : GoString) (hD : str ∉ deprecated env.DeprecatedFlags)
    (hH : ∀ g ∈ s.toList, g.Name = quorumAccountFlagGroup → str ∉ g.Flags.map Flag.String)
    (hR : occurrences str s.toList ≤ 1)
    (hF : str ∉ categorized s.toList →
      (flags.map Flag.String).count str = 1 ∧ fallbackShown s.toList) :
    (s.toList ≠ [] → (fallbackShown s.toList ∨ hiddenCount s.toList ≤ 1) →
      ∃ view, (HelpPrinter env env.AppHelpTemplate (.app flags) s).view = some view)
    ∧ ∀ view, (HelpPrinter env env.AppHelpTemplate (.app flags) s).view = some view →
        occurrences str view = 1 ∧ groupsWith str view = 1 := by
  rw [HelpPrinter_app]
  refine ⟨fun hne h => view_exists env _ flags s hwf hne h, ?_⟩
  intro view hv
  have hocc : occurrences str view = 1 := by
    rw [view_occurrences env _ flags s hwf view hv str hH (by
      intro hin
      obtain ⟨f, hf, rfl⟩ := List.mem_map.1 hin
      exact (hF (mem_uncategorized _ _ _ f hf).2.1).2), count_uncategorized]
    by_cases hc : str ∈ categorized s.toList
    · have hpos : 0 < occurrences str s.toList := List.count_pos_iff.2 hc
      simp only [hc, true_or, if_true]
      omega
    · have hz : occurrences str s.toList = 0 := List.count_eq_zero.2 hc
      have h1 := (hF hc).1
      simp only [hc, hD, or_self, if_false]
      omega
  exact ⟨hocc, groupsWith_of_occurrences_one str view hocc⟩

/-- Witness for `registered_flag_once`: the flag `W`, in no group and
registered once, with two groups that bear the hidden name in the registry;
the view has it once, in `Misc`. -/
theorem registered_flag_once_witness :
    (∃ view, (HelpPrinter (exampleEnv [] .insertion) "app" (.app [flagX, flagZ, flagW])
        (.ofList registryHiddenApart)).view = some view)
    ∧ (HelpPrinter (exampleEnv [] .insertion) "app" (.app [flagX, flagZ, flagW])
        (.ofList registryHiddenApart)).view
      = some [⟨"Net", [flagY]⟩, ⟨"Misc", [flagZ, flagW]⟩]
    ∧ occurrences "--w" [⟨"Net", [flagY]⟩, ⟨"Misc", [flagZ, flagW]⟩] = 1
    ∧ groupsWith "--w" [⟨"Net", [flagY]⟩, ⟨"Misc", [flagZ, flagW]⟩] = 1 :=
  have hlast : fallbackShown (GroupSlice.ofList registryHiddenApart).toList := by
    intro g hg
    simp [GroupSlice.toList, GroupSlice.ofList, registryHiddenApart] at hg
    subst hg
    decide
  have h := registered_flag_once (exampleEnv [] .insertion) [flagX, flagZ, flagW]
    (.ofList registryHiddenApart) (Nat.le_refl 4) "--w" (by decide) (by decide) (by decide)
    (fun _ => ⟨by decide, hlast⟩)
  ⟨h.1 (by decide) (Or.inl hlast), by decide, h.2 _ (by decide)⟩

/-- Claim C2 as stated fails.  A registered flag of the hidden group is
counted as categorized and its group is removed, so it is in no group of the
view; a flag listed in two groups of the registry is in two groups of the
view; a flag registered twice and in no group is staged twice; and with the
hidden group last, a registered flag in no group is staged on that group and
leaves the view with it. -/
theorem registered_flag_not_once :
    (∃ view, (HelpPrinter (exampleEnv [] .insertion) "app" (.app [flagX, flagY, flagH, flagZ])
        (.ofList registryHiddenMiddle)).view = some view
      ∧ occurrences flagH.String view = 0 ∧ groupsWith flagH.String view = 0)
    ∧ (∃ view, (HelpPrinter (exampleEnv [] .insertion) "app" (.app [flagX])
        (.ofList [⟨"Net", [flagX]⟩, ⟨"Misc", [flagX]⟩])).view = some view
      ∧ groupsWith flagX.String view = 2)
    ∧ (∃ view, (HelpPrinter (exampleEnv [] .insertion) "app" (.app [flagW, flagW])
        (.ofList registryNetMisc)).view = some view
      ∧ occurrences flagW.String view = 2)
    ∧ (∃ view, (HelpPrinter (exampleEnv [] .insertion) "app" (.app [flagW])
        (.ofList registryHiddenLast)).view = some view
      ∧ occurrences flagW.String view = 0 ∧ groupsWith flagW.String view = 0) :=
  ⟨⟨_, rfl, by decide, by decide⟩, ⟨_, rfl, by decide⟩, ⟨_, rfl, by decide⟩,
    ⟨_, rfl, by decide, by decide⟩⟩

/-! ## Theorems: the hidden group last after another hidden group -/

theorem removeAt_stale (s : GroupSlice) (i j : Nat) (hwf : s.wf) (hi : i + 1 ≤ s.len)
    (hj : s.len - 1 ≤ j) : (removeAt s i).arr[j]? = s.arr[j]? := by
  have h : s.len ≤ s.arr.length := hwf
  have hlen : (s.arr.take i ++ (s.arr.drop (i + 1)).take (s.len - (i + 1))).length
      = s.len - 1 := by
    simp only [List.length_append, List.length_take, List.length_drop]
    omega
  simp only [removeAt]
  rw [List.getElem?_append_right (by omega), hlen, List.getElem?_drop]
  congr 1
  omega

theorem excludeLoop_panics (H : FlagGroup) (n0 : Nat) (hH : H.Name = quorumAccountFlagGroup)
    (k : Nat) : ∀ (i : Nat) (s : GroupSlice), s.wf → s.arr[n0 - 1]? = some H → s.len < n0 →
    i + k = n0 → 0 < k → (excludeLoop k i s).2 ≠ none := by
  induction k with
  | zero => intro i s _ _ _ _ hk; omega
  | succ k ih =>
    intro i s hwf hlast hlen hik _
    rw [excludeLoop]
    cases hget : s.arr[i]? with
    | none => simp
    | some group =>
      simp only
      by_cases hn : group.Name = quorumAccountFlagGroup
      · by_cases hi : i + 1 ≤ s.len
        · simp only [hn, hi, if_true]
          have hk : 0 < k := by omega
          exact ih (i + 1) (removeAt s i) (removeAt_wf s i hwf hi)
            (by rw [removeAt_stale s i (n0 - 1) hwf hi (by omega)]; exact hlast)
            (by simp only [removeAt]; omega) (by omega) hk
        · simp [hn, hi]
      · simp only [hn, if_false]
        by_cases hk : k = 0
        · have hi : i = n0 - 1 := by omega
          rw [hi, hlast] at hget
          exact absurd (Option.some.inj hget ▸ hH) hn
        · exact ih (i + 1) s hwf hlast hlen (by omega) (by omega)

theorem exclude_panics_split (s : GroupSlice) (hwf : s.wf) (pre post junk : List FlagGroup)
    (h L : FlagGroup) (harr : s.arr = pre ++ (h :: (post ++ (L :: junk))))
    (hlen : s.len = pre.length + (1 + (post.length + 1)))
    (hpre : ∀ g ∈ pre, g.shown) (hh : h.Name = quorumAccountFlagGroup)
    (hL : L.Name = quorumAccountFlagGroup) : (exclude s).2 ≠ none := by
  have hprefix := excludeLoop_prefix pre.length (1 + (post.length + 1)) 0 s (by
    intro m _ h2
    obtain ⟨g, hg, hm⟩ := getElem?_mid [] pre (h :: (post ++ (L :: junk))) m (by simp)
      (by simpa using h2)
    rw [harr]
    exact ⟨g, by simpa using hg, hpre g hm⟩)
  have hget : s.arr[pre.length]? = some h := by
    rw [harr]
    exact getElem?_at pre _ h
  have hi : pre.length + 1 ≤ s.len := by omega
  have hlastget : s.arr[s.len - 1]? = some L := by
    have e : s.arr = (pre ++ (h :: post)) ++ (L :: junk) := by rw [harr]; simp
    have e2 : s.len - 1 = (pre ++ (h :: post)).length := by
      simp only [hlen, List.length_append, List.length_cons]
      omega
    rw [e, e2]
    exact getElem?_at _ junk L
  rw [exclude, hlen, hprefix, Nat.zero_add, Nat.add_comm 1 (post.length + 1), excludeLoop]
  simp only [hget, hh, hi, if_true]
  apply excludeLoop_panics L s.len hL (post.length + 1)
  · exact removeAt_wf _ _ hwf hi
  · rw [removeAt_stale _ _ _ hwf hi (Nat.le_refl _)]
    exact hlastget
  · simp only [removeAt]
    omega
  · omega
  · omega

theorem exclude_panics (front junk : List FlagGroup) (L : FlagGroup)
    (hL : L.Name = quorumAccountFlagGroup) (hfront : hiddenCount front ≠ 0) :
    (exclude ⟨front ++ (L :: junk), front.length + 1⟩).2 ≠ none := by
  obtain ⟨pre, h, post, rfl, hpre, hh⟩ := first_hidden front hfront
  apply exclude_panics_split _ _ pre post junk h L _ _ hpre hh hL
  · simp only [GroupSlice.wf, List.length_append, List.length_cons]
    omega
  · simp
  · simp only [List.length_append, List.length_cons]
    omega

theorem appHelp_view_none (env : Env) (tmpl : GoString) (flags : List Flag) (s : GroupSlice)
    (front junk : List FlagGroup) (L : FlagGroup)
    (hs : s.arr = front ++ (L :: junk)) (hl : s.len = front.length + 1)
    (hL : L.Name = quorumAccountFlagGroup) (hfront : hiddenCount front ≠ 0) :
    (appHelp env tmpl (.app flags) s).view = none := by
  cases hview : (appHelp env tmpl (.app flags) s).view with
  | none => rfl
  | some view =>
    exfalso
    by_cases hu : (uncategorized s.toList env.DeprecatedFlags flags).length > 0
    · simp only [appHelp, hu, if_true, stage_split s front junk L _ hs hl] at hview
      exact exclude_panics front junk
        (L.extend (uncategorized s.toList env.DeprecatedFlags flags)) hL hfront
        (excludeAndRender_view env tmpl _ _ _ view hview).1
    · simp only [appHelp, hu, if_false] at hview
      rw [slice_eq s front junk L hs hl] at hview
      exact exclude_panics front junk L hL hfront
        (excludeAndRender_view env tmpl _ _ _ view hview).1

/-! ## Theorems: the view in the words of the specification -/

theorem rangeRemove_eq_filter_chain : ∀ l : List FlagGroup, noAdjacentHidden l →
    rangeRemove l = l.filter fun g => !decide (g.Name = quorumAccountFlagGroup)
  | [], _ => rfl
  | [g], _ => by
    by_cases hg : g.Name = quorumAccountFlagGroup <;> simp [rangeRemove, hg]
  | g :: g1 :: rest, h => by
    have hc : ¬ (g.Name = quorumAccountFlagGroup ∧ g1.Name = quorumAccountFlagGroup) :=
      (List.chain'_cons.1 h).1
    have ht : noAdjacentHidden (g1 :: rest) := (List.chain'_cons.1 h).2
    by_cases hg : g.Name = quorumAccountFlagGroup
    · have hg1 : ¬ g1.Name = quorumAccountFlagGroup := fun h1 => hc ⟨hg, h1⟩
      have ih := rangeRemove_eq_filter_chain rest (List.Chain'.tail ht)
      simp only [rangeRemove, hg, if_true]
      rw [List.filter_cons_of_neg (by simp [hg]), List.filter_cons_of_pos (by simp [hg1]), ih]
    · have ih := rangeRemove_eq_filter_chain (g1 :: rest) ht
      simp only [rangeRemove, hg, if_false]
      rw [List.filter_cons_of_pos (by simp [hg]), ih]

theorem specAppView_hidden_last (front : List FlagGroup) (L : FlagGroup) (D flags : List Flag)
    (hL : L.Name = quorumAccountFlagGroup) (hfront : ∀ g ∈ front, g.shown) :
    specAppView (front ++ [L]) D flags = front := by
  have hn : (L.extend (uncategorized (front ++ [L]) D flags)).Name = quorumAccountFlagGroup := hL
  simp [specAppView, List.filter_append, hn, filter_of_shown front hfront]

theorem view_spec (env : Env) (tmpl : GoString) (flags : List Flag) (s : GroupSlice)
    (hwf : s.wf) (hadj : noAdjacentHidden s.toList) (view : List FlagGroup)
    (hv : (appHelp env tmpl (.app flags) s).view = some view) :
    view = specAppView s.toList env.DeprecatedFlags flags := by
  rcases slice_cases s hwf with h0 | ⟨front, L, junk, hs, hl⟩
  · rw [appHelp_view_empty_registry env tmpl flags s h0 view hv, toList_zero s h0]
    rfl
  · have ht := toList_split s front junk L hs hl
    by_cases hL : L.Name = quorumAccountFlagGroup
    · by_cases hz : hiddenCount front = 0
      · have hfront := (hiddenCount_zero front).1 hz
        rw [appHelp_view_hidden_last env tmpl flags s front junk L hs hl hfront hL] at hv
        rw [ht, specAppView_hidden_last front L _ _ hL hfront]
        exact (Option.some.inj hv).symm
      · rw [appHelp_view_none env tmpl flags s front junk L hs hl hL hz] at hv
        cases hv
    · obtain ⟨junk1, h⟩ := appHelp_shape env tmpl flags s front junk L hs hl hL
      rw [ht] at hadj
      rw [h, view_of_shape, rangeRemove_eq_filter_chain front (List.Chain'.left_of_append hadj)]
        at hv
      rw [ht, specAppView_split front L _ _ hL]
      exact (Option.some.inj hv).symm

/-- Claim C6, amended.  For every registered flag list, deprecated list and
registry in which no two neighbouring groups both bear the hidden name, every
view that the app-help branch hands to the original printer is the view in the
words of the specification: the registry with the flags of its last group
followed by exactly those flags of the list whose canonical string is in no
group of the registry and not deprecated, in the order of the list, and with
the groups that bear the hidden name filtered out; every other group keeps
its name and flags, and the groups keep their order.  When the last group
does not bear the hidden name this is the other groups filtered, then the
last group extended.  A view is handed over when the registry is not empty
and its last group does not bear the hidden name or at most one group bears
it. -/
theorem app_view_shape (env : Env) (flags : List Flag) (s : GroupSlice) (hwf : s.wf)
    (hadj : noAdjacentHidden s.toList) :
    (s.toList ≠ [] → (fallbackShown s.toList ∨ hiddenCount s.toList ≤ 1) →
      ∃ view, (HelpPrinter env env.AppHelpTemplate (.app flags) s).view = some view)
    ∧ (∀ view, (HelpPrinter env env.AppHelpTemplate (.app flags) s).view = some view →
        view = specAppView s.toList env.DeprecatedFlags flags)
    ∧ (∀ front L, s.toList = front ++ [L] → L.Name ≠ quorumAccountFlagGroup →
        (HelpPrinter env env.AppHelpTemplate (.app flags) s).view
          = some (front.filter (fun g => !decide (g.Name = quorumAccountFlagGroup))
              ++ [⟨L.Name, L.Flags ++ flags.filter fun flag =>
                    !decide (flag.String ∈ categorized (front ++ [L]))
                      && !decide (flag.String ∈ deprecated env.DeprecatedFlags)⟩])) := by
  rw [HelpPrinter_app]
  refine ⟨fun hne h => view_exists env _ flags s hwf hne h,
    fun view hv => view_spec env _ flags s hwf hadj view hv, ?_⟩
  intro front L ht hL
  obtain ⟨junk, hs, hl⟩ := slice_of_toList s hwf front L ht
  obtain ⟨junk1, h⟩ := appHelp_shape env env.AppHelpTemplate flags s front junk L hs hl hL
  rw [ht] at hadj
  rw [h, view_of_shape, rangeRemove_eq_filter_chain front (List.Chain'.left_of_append hadj)]
  rfl

/-- Witness for `app_view_shape`: the example of the specification.  Groups
`Net = [X, Y]` and `Misc = [Z]`, registered flags `[X, Y, Z, W]`, no deprecated
flag: the view is `Net = [X, Y]`, `Misc = [Z, W]`. -/
theorem app_view_shape_witness :
    (HelpPrinter (exampleEnv [] .insertion) "app" (.app [flagX, flagY, flagZ, flagW])
        (.ofList registryNetMisc)).view
      = some [⟨"Net", [flagX, flagY]⟩, ⟨"Misc", [flagZ, flagW]⟩]
    ∧ specAppView registryNetMisc [] [flagX, flagY, flagZ, flagW]
      = [⟨"Net", [flagX, flagY]⟩, ⟨"Misc", [flagZ, flagW]⟩] :=
  have h := app_view_shape (exampleEnv [] .insertion) [flagX, flagY, flagZ, flagW]
    (.ofList registryNetMisc) (Nat.le_refl 2) (by
      simp [noAdjacentHidden, GroupSlice.toList, GroupSlice.ofList, registryNetMisc]
      decide)
  ⟨(h.2.2 [⟨"Net", [flagX, flagY]⟩] ⟨"Misc", [flagZ]⟩ (by decide) (by decide)).trans
      (by decide),
    (h.2.1 [⟨"Net", [flagX, flagY]⟩, ⟨"Misc", [flagZ, flagW]⟩] (by decide)).symm⟩

/-- Claim C6 as stated fails.  With two neighbouring groups that bear the
hidden name the view keeps the second of them, so it is not the registry with
the hidden groups filtered out. -/
theorem app_view_not_filtered :
    (HelpPrinter (exampleEnv [] .insertion) "app" (.app [flagW])
        (.ofList registryHiddenTwice)).view
      = some [⟨quorumAccountFlagGroup, [flagH]⟩, ⟨"Misc", [flagZ, flagW]⟩]
    ∧ (HelpPrinter (exampleEnv [] .insertion) "app" (.app [flagW])
        (.ofList registryHiddenTwice)).view
      ≠ some (specAppView registryHiddenTwice [] [flagW])
    ∧ specAppView registryHiddenTwice [] [flagW] = [⟨"Misc", [flagZ, flagW]⟩] := by
  decide

end Usage
